import Mathlib

/-
Verification of the Minesweeper knowledge-based inference engine
(`minesweeper.py`): the `Sentence` data type and the `MinesweeperAI`
knowledge base with its fixpoint inference procedure.

The Python source is embedded shallowly:
* a `Sentence` is a `Finset` of cells together with an integer count
  (Python integers are unbounded, and `count -= 1` can drive the count
  negative, so the count is modelled as `ℤ`);
* the mutable `MinesweeperAI` object becomes a record `AI` passed and
  returned explicitly;
* the `while` loop of `update_knowledge` and the retry loop of
  `make_random_move` are modelled with explicit fuel, returning `none`
  when the fuel runs out, so that divergence is observable;
* iteration over a Python `set` (the per-cell propagation loops inside
  the extraction step) is modelled by its net effect on the state; the
  lemmas `foldl_mark_safe_eq_batch` / `foldl_mark_mine_eq_batch` prove
  that folding the per-cell operation over any enumeration of the set
  yields exactly that net effect, so the batch form is faithful to the
  source for every iteration order.
-/

namespace Minesweeper

/-- A board cell: a (row, column) pair of integers, as in the Python tuples. -/
abbrev Cell : Type := ℤ × ℤ

/-- Logical statement about a Minesweeper game: exactly `count` of the
cells in `cells` are mines.  Mirrors class `Sentence`, whose `__eq__`
compares the cell set and the count, which is exactly structural
equality here. -/
structure Sentence where
  cells : Finset Cell
  count : ℤ

instance : DecidableEq Sentence := fun s t =>
  decidable_of_iff (s.cells = t.cells ∧ s.count = t.count)
    (by cases s; cases t; simp [Sentence.mk.injEq])

namespace Sentence

/-- Mirrors `Sentence.known_mines`: the full cell set if `count == len(cells)`,
else the empty set. -/
def known_mines (s : Sentence) : Finset Cell :=
  if s.count = (s.cells.card : ℤ) then s.cells else ∅

/-- Mirrors `Sentence.known_safes`: the full cell set if `count == 0`,
else the empty set. -/
def known_safes (s : Sentence) : Finset Cell :=
  if s.count = 0 then s.cells else ∅

/-- Mirrors `Sentence.mark_mine`: if the cell is present, remove it and
decrement the count; otherwise leave the sentence unchanged. -/
def mark_mine (s : Sentence) (c : Cell) : Sentence :=
  if c ∈ s.cells then ⟨s.cells.erase c, s.count - 1⟩ else s

/-- Mirrors `Sentence.mark_safe`: if the cell is present, remove it;
the count is unchanged. -/
def mark_safe (s : Sentence) (c : Cell) : Sentence :=
  if c ∈ s.cells then ⟨s.cells.erase c, s.count⟩ else s

/-- Net effect on one sentence of marking every cell of a set `S` safe,
one cell at a time. -/
def mark_safes_set (s : Sentence) (S : Finset Cell) : Sentence :=
  ⟨s.cells \ S, s.count⟩

/-- Net effect on one sentence of marking every cell of a set `S` as a
mine, one cell at a time: each removed cell decrements the count once. -/
def mark_mines_set (s : Sentence) (S : Finset Cell) : Sentence :=
  ⟨s.cells \ S, s.count - ((s.cells ∩ S).card : ℤ)⟩

end Sentence

/-- The state of the `MinesweeperAI` object: board dimensions, the global
sets of moves made, known mines and known safes, and the list of live
sentences (`self.knowledge`, a Python list). -/
structure AI where
  height : ℤ
  width : ℤ
  moves_made : Finset Cell
  mines : Finset Cell
  safes : Finset Cell
  knowledge : List Sentence

instance : DecidableEq AI := fun s t =>
  decidable_of_iff
    (s.height = t.height ∧ s.width = t.width ∧ s.moves_made = t.moves_made ∧
      s.mines = t.mines ∧ s.safes = t.safes ∧ s.knowledge = t.knowledge)
    (by cases s; cases t; simp [AI.mk.injEq])

instance : DecidableEq (Option AI) := fun a b =>
  match a, b with
  | none, none => isTrue rfl
  | some x, some y => decidable_of_iff (x = y) (by simp)
  | none, some _ => isFalse (by simp)
  | some _, none => isFalse (by simp)

namespace AI

/-- A freshly constructed `MinesweeperAI(height, width)`. -/
def fresh (h w : ℤ) : AI :=
  ⟨h, w, ∅, ∅, ∅, []⟩

/-- Mirrors `MinesweeperAI.mark_mine`: add the cell to `mines` and
propagate `Sentence.mark_mine` to every sentence in `knowledge`. -/
def mark_mine (st : AI) (c : Cell) : AI :=
  { st with mines := insert c st.mines,
            knowledge := st.knowledge.map (fun s => s.mark_mine c) }

/-- Mirrors `MinesweeperAI.mark_safe`: add the cell to `safes` and
propagate `Sentence.mark_safe` to every sentence in `knowledge`. -/
def mark_safe (st : AI) (c : Cell) : AI :=
  { st with safes := insert c st.safes,
            knowledge := st.knowledge.map (fun s => s.mark_safe c) }

/-- Net effect of `self.safes.update(S)` followed by `self.mark_safe(c)`
for every `c` in the set `S` (in any order). -/
def mark_safes_set (st : AI) (S : Finset Cell) : AI :=
  { st with safes := st.safes ∪ S,
            knowledge := st.knowledge.map (fun s => s.mark_safes_set S) }

/-- Net effect of `self.mines.update(S)` followed by `self.mark_mine(c)`
for every `c` in the set `S` (in any order). -/
def mark_mines_set (st : AI) (S : Finset Cell) : AI :=
  { st with mines := st.mines ∪ S,
            knowledge := st.knowledge.map (fun s => s.mark_mines_set S) }

/-- One visit of the extraction loop body of `update_knowledge` to the
sentence `s`: snapshot `known_safes` and `known_mines`, and if non-empty
union them into the global sets and propagate them to every sentence,
setting the changed flag. -/
def extractStep (st : AI) (s : Sentence) (changed : Bool) : AI × Bool :=
  let sf := s.known_safes
  let mn := s.known_mines
  let p1 : AI × Bool := if sf.Nonempty then (st.mark_safes_set sf, true) else (st, changed)
  if mn.Nonempty then ((p1.1).mark_mines_set mn, true) else p1

/-- The extraction loop `for sentence in self.knowledge:` of
`update_knowledge`, iterating by index (the length of `knowledge` is
unchanged by the loop body, so a fuel of the initial length visits
exactly every element, like the Python list iterator). -/
def extractAux (st : AI) (i : ℕ) (fuel : ℕ) (changed : Bool) : AI × Bool :=
  match fuel with
  | 0 => (st, changed)
  | fuel' + 1 =>
    match st.knowledge.get? i with
    | none => (st, changed)
    | some s =>
      extractAux (extractStep st s changed).1 (i + 1) fuel' (extractStep st s changed).2

/-- The full extraction phase of one round of `update_knowledge`. -/
def extract (st : AI) (changed : Bool) : AI × Bool :=
  extractAux st 0 st.knowledge.length changed

/-- The garbage-collection line
`self.knowledge = [s for s in self.knowledge if s.cells]`. -/
def gc (st : AI) : AI :=
  { st with knowledge := st.knowledge.filter (fun s => s.cells ≠ ∅) }

end AI

/-- The body of the innermost subsumption loop of `update_knowledge`, for
the ordered pair `(s1, s2)`: if the sentences differ (by value, Python
`!=` via `__eq__`) and `s1.cells ⊆ s2.cells`, build the candidate
`(s2.cells − s1.cells, s2.count − s1.count)` and append it when it is not
already in the list and its cell set is non-empty.  Returns the new list
and whether an append happened. -/
def subStep (K : List Sentence) (s1 s2 : Sentence) : List Sentence × Bool :=
  if s1 ≠ s2 ∧ s1.cells ⊆ s2.cells then
    if (⟨s2.cells \ s1.cells, s2.count - s1.count⟩ : Sentence) ∉ K ∧
        s2.cells \ s1.cells ≠ ∅ then
      (K ++ [⟨s2.cells \ s1.cells, s2.count - s1.count⟩], true)
    else (K, false)
  else (K, false)

/-- The nested subsumption loops of `update_knowledge`.  Python iterates
both loops over the live list `self.knowledge`, and appends performed by
the body are seen by both iterators; this is modelled by the index pair
`(i, j)` checked against the current length at every step.  The loops
can run forever (the list can grow without bound), so they carry fuel
and return `none` on exhaustion. -/
def subAux (K : List Sentence) (i j : ℕ) (changed : Bool) (fuel : ℕ) :
    Option (List Sentence × Bool) :=
  match fuel with
  | 0 => none
  | fuel' + 1 =>
    if h1 : K.length ≤ i then some (K, changed)
    else if h2 : K.length ≤ j then subAux K (i + 1) 0 changed fuel'
    else
      subAux (subStep K (K.get ⟨i, by omega⟩) (K.get ⟨j, by omega⟩)).1 i (j + 1)
        (changed || (subStep K (K.get ⟨i, by omega⟩) (K.get ⟨j, by omega⟩)).2) fuel'

namespace AI

/-- One round of the `while changed:` loop of `update_knowledge`:
extraction over every sentence, garbage collection, then the full
subsumption pass.  Returns the new state and the round's changed flag,
or `none` if the subsumption pass exhausts its fuel. -/
def roundFn (st : AI) (subFuel : ℕ) : Option (AI × Bool) :=
  match subAux ((st.extract false).1.gc).knowledge 0 0 (st.extract false).2 subFuel with
  | none => none
  | some q => some ({ (st.extract false).1.gc with knowledge := q.1 }, q.2)

/-- The `while changed:` loop of `update_knowledge`, with fuel for the
number of rounds and for each round's subsumption pass. -/
def updateAux (st : AI) (roundFuel subFuel : ℕ) : Option AI :=
  match roundFuel with
  | 0 => none
  | r + 1 =>
    match st.roundFn subFuel with
    | none => none
    | some q => if q.2 then updateAux q.1 r subFuel else some q.1

/-- Mirrors `MinesweeperAI.update_knowledge`, with fuel. -/
def update_knowledge (st : AI) (fuel : ℕ) : Option AI :=
  updateAux st fuel fuel

/-- Mirrors `MinesweeperAI.get_neighbors`: the list comprehension over
`range(i-1, i+2) × range(j-1, j+2)` filtered to in-bounds cells distinct
from the cell itself. -/
def get_neighbors (st : AI) (cell : Cell) : List Cell :=
  (([cell.1 - 1, cell.1, cell.1 + 1].flatMap fun x =>
      [(x, cell.2 - 1), (x, cell.2), (x, cell.2 + 1)])).filter
    (fun p => 0 ≤ p.1 ∧ p.1 < st.height ∧ 0 ≤ p.2 ∧ p.2 < st.width ∧ p ≠ cell)

/-- The neighbor-partition loop of `add_knowledge`: walk the neighbor
list, skipping known safes, decrementing the count for known mines, and
accumulating the rest. -/
def partitionNeighbors (st : AI) : List Cell → Finset Cell → ℤ → Finset Cell × ℤ
  | [], unknown, count => (unknown, count)
  | n :: rest, unknown, count =>
    if n ∈ st.safes then partitionNeighbors st rest unknown count
    else if n ∈ st.mines then partitionNeighbors st rest unknown (count - 1)
    else partitionNeighbors st rest (insert n unknown) count

/-- Mirrors `MinesweeperAI.add_knowledge`: record the move, mark the cell
safe, partition its in-bounds neighbors against the known safes and
mines, append the resulting sentence when its cell set is non-empty, and
run the fixpoint procedure (which carries the fuel). -/
def add_knowledge (st : AI) (cell : Cell) (count : ℤ) (fuel : ℕ) : Option AI :=
  let st1 := { st with moves_made := insert cell st.moves_made }
  let st2 := st1.mark_safe cell
  let p := st2.partitionNeighbors (st2.get_neighbors cell) ∅ count
  let st3 :=
    if p.1 ≠ ∅ then
      { st2 with knowledge := st2.knowledge ++ [⟨p.1, p.2⟩] }
    else st2
  st3.update_knowledge fuel

/-- Mirrors `MinesweeperAI.make_random_move`: draw cells from the stream
`draws` (the successive results of the two `random.randint` calls)
starting at position `k`, return the first draw that is in neither
`moves_made` nor `mines`, and return the not-found signal when the board
is exhausted by the size test.  The retry loop can run forever, so it
carries fuel; the outer `none` means the fuel ran out. -/
def make_random_move (st : AI) (draws : ℕ → Cell) (k : ℕ) (fuel : ℕ) :
    Option (Option Cell) :=
  match fuel with
  | 0 => none
  | fuel' + 1 =>
    let move := draws k
    if move ∉ st.moves_made ∧ move ∉ st.mines then some (some move)
    else if (st.moves_made.card + st.mines.card : ℤ) = st.height * st.width then
      some none
    else st.make_random_move draws (k + 1) fuel'

/-- Mirrors `MinesweeperAI.make_safe_move` up to the unspecified Python
set-iteration order: the source returns an arbitrary member of
`safes − moves_made` (or `None` when that set is empty) and mutates
nothing, so it is modelled by its set of admissible answers. -/
def make_safe_move_candidates (st : AI) : Finset Cell :=
  st.safes \ st.moves_made

end AI

/-- A sentence is satisfied by the mine assignment `M` when exactly
`count` of its cells lie in `M`. -/
def satBy (M : Finset Cell) (s : Sentence) : Prop :=
  ((s.cells ∩ M).card : ℤ) = s.count

/-- Consistency of a knowledge-base state with a ground-truth mine set
`M`: every known mine is a mine of `M`, no known safe is, and every live
sentence counts its mines exactly. -/
def Inv (M : Finset Cell) (st : AI) : Prop :=
  st.mines ⊆ M ∧ (∀ c ∈ st.safes, c ∉ M) ∧ ∀ s ∈ st.knowledge, satBy M s

/-- States reachable from a fresh knowledge base through the operation
contract of the specification, relative to the ground-truth mine set
`M`: `add_knowledge` is called with a revealed (non-mine) cell and the
true count of mines among its in-bounds neighbors, `mark_mine` only with
actual mines, `mark_safe` only with actual non-mines.  The query
operations `make_safe_move` and `make_random_move` do not mutate the
state, so they contribute no step. -/
inductive Reach (h w : ℤ) (M : Finset Cell) : AI → Prop where
  | init : Reach h w M (AI.fresh h w)
  | add_step (st st' : AI) (cell : Cell) (fuel : ℕ) :
      Reach h w M st → cell ∉ M →
      st.add_knowledge cell
        (((st.get_neighbors cell).toFinset ∩ M).card : ℤ) fuel = some st' →
      Reach h w M st'
  | mine_step (st : AI) (c : Cell) : Reach h w M st → c ∈ M →
      Reach h w M (st.mark_mine c)
  | safe_step (st : AI) (c : Cell) : Reach h w M st → c ∉ M →
      Reach h w M (st.mark_safe c)

/-- Hygiene of a state: every live sentence's cells avoid the known
safes and mines and lie within the board bounds of the state. -/
def HB (st : AI) : Prop :=
  ∀ s ∈ st.knowledge,
    (∀ c ∈ s.cells, c ∉ st.safes) ∧ (∀ c ∈ s.cells, c ∉ st.mines) ∧
      ∀ c ∈ s.cells, 0 ≤ c.1 ∧ c.1 < st.height ∧ 0 ≤ c.2 ∧ c.2 < st.width

/-- States reachable from a fresh instance by arbitrary sequences of the
public mutating operations, with unrestricted arguments (no consistency
assumption on the reported counts).  The query operations mutate
nothing. -/
inductive ReachAny : AI → Prop where
  | init (h w : ℤ) : ReachAny (AI.fresh h w)
  | add_step (st st' : AI) (cell : Cell) (count : ℤ) (fuel : ℕ) :
      ReachAny st → st.add_knowledge cell count fuel = some st' → ReachAny st'
  | mine_step (st : AI) (c : Cell) : ReachAny st → ReachAny (st.mark_mine c)
  | safe_step (st : AI) (c : Cell) : ReachAny st → ReachAny (st.mark_safe c)

/-- Structure of a list produced by appends to `K0`: a suffix of pairwise
distinct sentences, none already in `K0`, all with non-empty cells. -/
def ExtOf (K0 K : List Sentence) : Prop :=
  ∃ A, K = K0 ++ A ∧ A.Nodup ∧ (∀ a ∈ A, a ∉ K0) ∧ ∀ a ∈ A, a.cells ≠ ∅

/-- A sentence drawn over the finite cell universe `U` and satisfied by
`M`: the universe of values the subsumption pass can ever hold. -/
def Good (U M : Finset Cell) (s : Sentence) : Prop :=
  s.cells ⊆ U ∧ satBy M s

/-- Per-run invariant for the fixpoint: every live sentence is `Good`
over the fixed universe `U` and its cells avoid the current `safes` and
`mines`. -/
def StInv (U M : Finset Cell) (st : AI) : Prop :=
  ∀ s ∈ st.knowledge,
    Good U M s ∧ (∀ c ∈ s.cells, c ∉ st.safes) ∧ ∀ c ∈ s.cells, c ∉ st.mines

/-- Number of universe cells not yet classified as safe or mine. -/
def freeCount (U : Finset Cell) (st : AI) : ℕ :=
  (U \ (st.safes ∪ st.mines)).card

/-- Indicator of a sentence with an empty cell set surviving in
`knowledge`. -/
def emptyBit (st : AI) : ℕ :=
  if ∃ s ∈ st.knowledge, s.cells = ∅ then 1 else 0

/-- Termination measure for the rounds of `update_knowledge`:
lexicographically, the number of unclassified universe cells, then the
presence of an empty-cell sentence, then the number of sentence values
still missing from `knowledge`. -/
def mu (U : Finset Cell) (st : AI) : ℕ :=
  (freeCount U st * 2 + emptyBit st) * (U.powerset.card + 1) +
    (U.powerset.card - st.knowledge.toFinset.card)

/-- The union of every live sentence's cells: the finite universe over
which one run of the fixpoint procedure works. -/
def cellsUnion (K : List Sentence) : Finset Cell :=
  K.foldr (fun s acc => s.cells ∪ acc) ∅

theorem Sentence.mark_safes_set_empty (s : Sentence) : s.mark_safes_set ∅ = s := by
  cases s; simp [Sentence.mark_safes_set]

theorem Sentence.mark_mines_set_empty (s : Sentence) : s.mark_mines_set ∅ = s := by
  cases s; simp [Sentence.mark_mines_set]

theorem Sentence.mark_safe_then_set (s : Sentence) (c : Cell) (S : Finset Cell) :
    (s.mark_safe c).mark_safes_set S = s.mark_safes_set (insert c S) := by
  by_cases hc : c ∈ s.cells
  · simp only [Sentence.mark_safe, hc, if_true, Sentence.mark_safes_set]
    congr 1
    rw [Finset.sdiff_insert, Finset.erase_sdiff_comm]
  · simp only [Sentence.mark_safe, hc, if_false, Sentence.mark_safes_set]
    congr 1
    rw [Finset.sdiff_insert,
      Finset.erase_eq_of_not_mem (fun hmem => hc (Finset.mem_sdiff.mp hmem).1)]

theorem Sentence.mark_mine_then_set (s : Sentence) (c : Cell) (S : Finset Cell) :
    (s.mark_mine c).mark_mines_set S = s.mark_mines_set (insert c S) := by
  by_cases hc : c ∈ s.cells
  · have hcells : (s.cells.erase c) \ S = s.cells \ insert c S := by
      rw [Finset.sdiff_insert, Finset.erase_sdiff_comm]
    have hinter : s.cells ∩ insert c S = insert c (s.cells.erase c ∩ S) := by
      ext x
      simp only [Finset.mem_inter, Finset.mem_insert, Finset.mem_erase]
      constructor
      · rintro ⟨hx, hx' | hx'⟩
        · exact Or.inl hx'
        · by_cases hxc : x = c
          · exact Or.inl hxc
          · exact Or.inr ⟨⟨hxc, hx⟩, hx'⟩
      · rintro (rfl | ⟨⟨hxc, hx⟩, hx'⟩)
        · exact ⟨hc, Or.inl rfl⟩
        · exact ⟨hx, Or.inr hx'⟩
    have hcard : (s.cells ∩ insert c S).card = (s.cells.erase c ∩ S).card + 1 := by
      rw [hinter, Finset.card_insert_of_not_mem]
      simp
    simp only [Sentence.mark_mine, hc, if_true, Sentence.mark_mines_set, hcells, hcard]
    congr 1
    push_cast
    ring
  · have hcells : s.cells \ S = s.cells \ insert c S := by
      rw [Finset.sdiff_insert, Finset.erase_eq_of_not_mem]
      intro hmem
      exact hc (Finset.mem_sdiff.mp hmem).1
    have hinter : s.cells ∩ insert c S = s.cells ∩ S := by
      ext x
      simp only [Finset.mem_inter, Finset.mem_insert]
      constructor
      · rintro ⟨hx, rfl | hx'⟩
        · exact absurd hx hc
        · exact ⟨hx, hx'⟩
      · rintro ⟨hx, hx'⟩
        exact ⟨hx, Or.inr hx'⟩
    simp [Sentence.mark_mine, hc, Sentence.mark_mines_set, hcells, hinter]

theorem ai_mark_safes_set_empty (st : AI) : st.mark_safes_set ∅ = st := by
  cases st
  simp [AI.mark_safes_set, List.map_congr_left fun s _ => Sentence.mark_safes_set_empty s]

theorem ai_mark_mines_set_empty (st : AI) : st.mark_mines_set ∅ = st := by
  cases st
  simp [AI.mark_mines_set, List.map_congr_left fun s _ => Sentence.mark_mines_set_empty s]

theorem ai_mark_safe_then_set (st : AI) (c : Cell) (S : Finset Cell) :
    (st.mark_safe c).mark_safes_set S = st.mark_safes_set (insert c S) := by
  cases st
  simp only [AI.mark_safe, AI.mark_safes_set, List.map_map]
  congr 1
  · rw [Finset.union_insert, Finset.insert_union]
  · exact List.map_congr_left fun s _ => Sentence.mark_safe_then_set s c S

theorem ai_mark_mine_then_set (st : AI) (c : Cell) (S : Finset Cell) :
    (st.mark_mine c).mark_mines_set S = st.mark_mines_set (insert c S) := by
  cases st
  simp only [AI.mark_mine, AI.mark_mines_set, List.map_map]
  congr 1
  · rw [Finset.union_insert, Finset.insert_union]
  · exact List.map_congr_left fun s _ => Sentence.mark_mine_then_set s c S

/-- Folding the per-cell `mark_safe` of the source over any enumeration
of a set of cells is exactly the batch operation on that set: the batch
form used inside `extractStep` is faithful to the source's per-cell
iteration, whatever order the Python set iterator produces. -/
theorem foldl_mark_safe_eq_batch (l : List Cell) (st : AI) :
    l.foldl AI.mark_safe st = st.mark_safes_set l.toFinset := by
  induction l generalizing st with
  | nil => simp [ai_mark_safes_set_empty]
  | cons c l ih =>
    simp only [List.foldl_cons, List.toFinset_cons]
    rw [ih, ai_mark_safe_then_set]

/-- Counterpart of `foldl_mark_safe_eq_batch` for `mark_mine`. -/
theorem foldl_mark_mine_eq_batch (l : List Cell) (st : AI) :
    l.foldl AI.mark_mine st = st.mark_mines_set l.toFinset := by
  induction l generalizing st with
  | nil => simp [ai_mark_mines_set_empty]
  | cons c l ih =>
    simp only [List.foldl_cons, List.toFinset_cons]
    rw [ih, ai_mark_mine_then_set]

/-- Claim C4, parts about `mark_mine`: removal and exact decrement when
present, identity when absent. -/
theorem mark_mine_spec (s : Sentence) (c : Cell) :
    (c ∈ s.cells →
      (s.mark_mine c).cells = s.cells.erase c ∧
      (s.mark_mine c).count = s.count - 1) ∧
    (c ∉ s.cells → s.mark_mine c = s) := by
  constructor <;> intro hc <;> simp [Sentence.mark_mine, hc]

/-- Claim C4, parts about `mark_safe`: removal with unchanged count when
present, identity when absent. -/
theorem mark_safe_spec (s : Sentence) (c : Cell) :
    (c ∈ s.cells →
      (s.mark_safe c).cells = s.cells.erase c ∧
      (s.mark_safe c).count = s.count) ∧
    (c ∉ s.cells → s.mark_safe c = s) := by
  constructor <;> intro hc <;> simp [Sentence.mark_safe, hc]

/-- Claim C4: `known_mines` returns the full cell set exactly when the
count equals the number of cells and the empty set otherwise;
`known_safes` returns the full cell set exactly when the count is zero
and the empty set otherwise; `mark_mine` removes a present cell and
decrements the count by exactly one, and is the identity on an absent
cell; `mark_safe` removes a present cell leaving the count unchanged,
and is the identity on an absent cell.  The operations are pure
functions of the sentence, so they have no side effects. -/
theorem sentence_operations_spec (s : Sentence) (c : Cell) :
    (s.count = (s.cells.card : ℤ) → s.known_mines = s.cells) ∧
    (s.count ≠ (s.cells.card : ℤ) → s.known_mines = ∅) ∧
    (s.count = 0 → s.known_safes = s.cells) ∧
    (s.count ≠ 0 → s.known_safes = ∅) ∧
    (c ∈ s.cells →
      (s.mark_mine c).cells = s.cells.erase c ∧
      (s.mark_mine c).count = s.count - 1 ∧
      (s.mark_safe c).cells = s.cells.erase c ∧
      (s.mark_safe c).count = s.count) ∧
    (c ∉ s.cells → s.mark_mine c = s ∧ s.mark_safe c = s) := by
  refine ⟨fun h => ?_, fun h => ?_, fun h => ?_, fun h => ?_, fun h => ?_, fun h => ?_⟩ <;>
    simp [Sentence.known_mines, Sentence.known_safes, Sentence.mark_mine,
      Sentence.mark_safe, h]

theorem subsumption_sound_aux (A B M : Finset Cell) (h : A ⊆ B) :
    ((B \ A) ∩ M).card + (A ∩ M).card = (B ∩ M).card := by
  rw [← Finset.card_union_of_disjoint]
  · congr 1
    ext x
    simp only [Finset.mem_union, Finset.mem_inter, Finset.mem_sdiff]
    constructor
    · rintro (⟨⟨hB, _⟩, hM⟩ | ⟨hA, hM⟩)
      · exact ⟨hB, hM⟩
      · exact ⟨h hA, hM⟩
    · rintro ⟨hB, hM⟩
      by_cases hA : x ∈ A
      · exact Or.inr ⟨hA, hM⟩
      · exact Or.inl ⟨⟨hB, hA⟩, hM⟩
  · rw [Finset.disjoint_left]
    intro x hx hA
    exact (Finset.mem_sdiff.mp (Finset.mem_inter.mp hx).1).2 (Finset.mem_inter.mp hA).1

/-- Claim C1: for an ordered pair of distinct sentences `(A, B)` with
`A.cells ⊆ B.cells`, the subsumption step of `update_knowledge` appends
the candidate `(B.cells − A.cells, B.count − A.count)` exactly when the
candidate's cell set is non-empty and no sentence equal to it (same cell
set, same count) is already in `knowledge`, and otherwise leaves
`knowledge` unchanged; moreover the candidate is logically valid: for
every mine assignment `M` under which exactly `A.count` of `A`'s cells
and exactly `B.count` of `B`'s cells are mines, exactly
`B.count − A.count` of the cells of `B.cells − A.cells` are mines. -/
theorem subsumption_step_correct_and_sound (K : List Sentence) (A B : Sentence)
    (hne : A ≠ B) (hsub : A.cells ⊆ B.cells) :
    (subStep K A B =
      if (⟨B.cells \ A.cells, B.count - A.count⟩ : Sentence) ∉ K ∧
          B.cells \ A.cells ≠ ∅ then
        (K ++ [⟨B.cells \ A.cells, B.count - A.count⟩], true)
      else (K, false)) ∧
    (∀ M : Finset Cell,
      ((A.cells ∩ M).card : ℤ) = A.count →
      ((B.cells ∩ M).card : ℤ) = B.count →
      (((B.cells \ A.cells) ∩ M).card : ℤ) = B.count - A.count) := by
  constructor
  · simp only [subStep, if_pos (And.intro hne hsub)]
  · intro M hA hB
    have key := subsumption_sound_aux A.cells B.cells M hsub
    rw [← hA, ← hB]
    omega

/-- Witness for C1 at concrete sentences: from `{(0,0)} = 0` and
`{(0,0),(0,1)} = 1` the step derives `{(0,1)} = 1` and appends it. -/
theorem subsumption_step_witness :
    subStep [] ⟨{((0 : ℤ), (0 : ℤ))}, 0⟩ ⟨{((0 : ℤ), (0 : ℤ)), ((0 : ℤ), (1 : ℤ))}, 1⟩ =
      ([⟨{((0 : ℤ), (1 : ℤ))}, 1⟩], true) := by
  have h := subsumption_step_correct_and_sound []
    ⟨{((0 : ℤ), (0 : ℤ))}, 0⟩ ⟨{((0 : ℤ), (0 : ℤ)), ((0 : ℤ), (1 : ℤ))}, 1⟩
    (by decide) (by decide)
  rw [h.1]
  decide

/-- Witness for C4 at a concrete sentence and cell. -/
theorem sentence_operations_spec_witness :
    ((⟨{((0 : ℤ), (0 : ℤ)), ((0 : ℤ), (1 : ℤ))}, 1⟩ : Sentence).mark_mine
        ((0 : ℤ), (0 : ℤ))).count = 0 := by
  have h := sentence_operations_spec
    ⟨{((0 : ℤ), (0 : ℤ)), ((0 : ℤ), (1 : ℤ))}, 1⟩ ((0 : ℤ), (0 : ℤ))
  have hm := (h.2.2.2.2.1 (by decide)).2.1
  rw [hm]
  decide

/-- Claim C9 (amended): for every state and every stream of in-range
draws, every value `make_random_move` returns is either a board cell
that is in neither `moves_made` nor `mines`, or the not-found signal
`None`; and it returns `None` only when
`|moves_made| + |mines| == height * width`. -/
theorem make_random_move_spec (st : AI) (draws : ℕ → Cell) (k fuel : ℕ)
    (hdraws : ∀ n, 0 ≤ (draws n).1 ∧ (draws n).1 < st.height ∧
      0 ≤ (draws n).2 ∧ (draws n).2 < st.width) :
    (∀ m, st.make_random_move draws k fuel = some (some m) →
      (0 ≤ m.1 ∧ m.1 < st.height ∧ 0 ≤ m.2 ∧ m.2 < st.width) ∧
        m ∉ st.moves_made ∧ m ∉ st.mines) ∧
    (st.make_random_move draws k fuel = some none →
      (st.moves_made.card + st.mines.card : ℤ) = st.height * st.width) := by
  induction fuel generalizing k with
  | zero =>
    refine ⟨fun m h => ?_, fun h => ?_⟩ <;> simp [AI.make_random_move] at h
  | succ fuel ih =>
    rw [AI.make_random_move]
    by_cases hfree : draws k ∉ st.moves_made ∧ draws k ∉ st.mines
    · rw [if_pos hfree]
      refine ⟨fun m h => ?_, fun h => ?_⟩
      · obtain rfl : draws k = m := by simpa using h
        exact ⟨hdraws k, hfree⟩
      · simp at h
    · rw [if_neg hfree]
      by_cases hfull : (st.moves_made.card + st.mines.card : ℤ) = st.height * st.width
      · rw [if_pos hfull]
        refine ⟨fun m h => ?_, fun _ => hfull⟩
        simp at h
      · rw [if_neg hfull]
        exact ih (k + 1)

/-- Witness for C9 (amended) on a concrete one-cell board: the first
draw is free and is returned, and the theorem certifies it in-bounds
and outside `moves_made ∪ mines`. -/
theorem make_random_move_spec_witness :
    ((0 : ℤ), (0 : ℤ)) ∉ (AI.fresh 1 1).moves_made ∧
      ((0 : ℤ), (0 : ℤ)) ∉ (AI.fresh 1 1).mines :=
  ((make_random_move_spec (AI.fresh 1 1) (fun _ => ((0 : ℤ), (0 : ℤ))) 0 1
      (by intro n; norm_num [AI.fresh])).1
    ((0 : ℤ), (0 : ℤ)) (by decide)).2

/-- Counterexample to C9 as stated: in the state with `height = width = 1`,
`moves_made = {(0,5)}` and `mines = ∅`, the sum `|moves_made| + |mines|`
equals `width * height`, yet `make_random_move` does not return the
not-found signal: the in-range draw `(0,0)` is in neither set, so the
call returns it immediately.  The "exactly when" direction of the claim
(sum equal implies `None`) therefore fails. -/
theorem make_random_move_not_iff :
    AI.make_random_move ⟨1, 1, {((0 : ℤ), (5 : ℤ))}, ∅, ∅, []⟩
        (fun _ => ((0 : ℤ), (0 : ℤ))) 0 1 = some (some ((0 : ℤ), (0 : ℤ))) ∧
    ((⟨1, 1, {((0 : ℤ), (5 : ℤ))}, ∅, ∅, []⟩ : AI).moves_made.card +
        (⟨1, 1, {((0 : ℤ), (5 : ℤ))}, ∅, ∅, []⟩ : AI).mines.card : ℤ) =
      (⟨1, 1, {((0 : ℤ), (5 : ℤ))}, ∅, ∅, []⟩ : AI).height *
        (⟨1, 1, {((0 : ℤ), (5 : ℤ))}, ∅, ∅, []⟩ : AI).width := by
  constructor
  · rfl
  · decide

/-- Counterexample to C8: two states carrying the same unordered
knowledge (the sentences `{(0,0)} = 0` and `{(0,0),(0,1)} = 2`, an
inconsistent pair) in the two possible visitation orders.  Visiting
`{(0,0)} = 0` first extracts `(0,0)` as safe and leaves the inert
sentence `{(0,1)} = 2`; visiting `{(0,0),(0,1)} = 2` first extracts both
cells as mines and empties the knowledge base.  The final `safes`,
`mines` and `knowledge` all differ, so the fixpoint result does depend
on the visitation order over `knowledge`. -/
theorem fixpoint_not_confluent :
    AI.update_knowledge
        ⟨2, 2, ∅, ∅, ∅, [⟨{((0 : ℤ), (0 : ℤ))}, 0⟩,
          ⟨{((0 : ℤ), (0 : ℤ)), ((0 : ℤ), (1 : ℤ))}, 2⟩]⟩ 10 =
      some ⟨2, 2, ∅, ∅, {((0 : ℤ), (0 : ℤ))}, [⟨{((0 : ℤ), (1 : ℤ))}, 2⟩]⟩ ∧
    AI.update_knowledge
        ⟨2, 2, ∅, ∅, ∅, [⟨{((0 : ℤ), (0 : ℤ)), ((0 : ℤ), (1 : ℤ))}, 2⟩,
          ⟨{((0 : ℤ), (0 : ℤ))}, 0⟩]⟩ 10 =
      some ⟨2, 2, ∅, {((0 : ℤ), (0 : ℤ)), ((0 : ℤ), (1 : ℤ))}, ∅, []⟩ ∧
    ({((0 : ℤ), (0 : ℤ))} : Finset Cell) ≠ (∅ : Finset Cell) ∧
    ([⟨{((0 : ℤ), (1 : ℤ))}, 2⟩] : List Sentence) ≠ ([] : List Sentence) ∧
    (∅ : Finset Cell) ≠ ({((0 : ℤ), (0 : ℤ)), ((0 : ℤ), (1 : ℤ))} : Finset Cell) := by
  refine ⟨by decide, by decide, by decide, by decide, by decide⟩

/-- Claim C8 (amended): the iteration order over a cell set during
propagation is irrelevant — folding the per-cell `mark_safe` or
`mark_mine` of the knowledge base over any two enumerations of the same
cell set produces the same state.  (Order over the `knowledge`
collection, by contrast, does affect the final fixpoint.) -/
theorem mark_propagation_order_irrelevant (st : AI) (l1 l2 : List Cell)
    (h : l1.toFinset = l2.toFinset) :
    l1.foldl AI.mark_safe st = l2.foldl AI.mark_safe st ∧
    l1.foldl AI.mark_mine st = l2.foldl AI.mark_mine st := by
  rw [foldl_mark_safe_eq_batch, foldl_mark_safe_eq_batch,
    foldl_mark_mine_eq_batch, foldl_mark_mine_eq_batch, h]
  exact ⟨rfl, rfl⟩

/-- Witness for C8 (amended): the two orders of marking the cells
`(0,0)` and `(0,1)` safe agree on a concrete state. -/
theorem mark_propagation_order_irrelevant_witness :
    [((0 : ℤ), (0 : ℤ)), ((0 : ℤ), (1 : ℤ))].foldl AI.mark_safe
        ⟨2, 2, ∅, ∅, ∅, [⟨{((0 : ℤ), (0 : ℤ)), ((0 : ℤ), (1 : ℤ))}, 1⟩]⟩ =
      [((0 : ℤ), (1 : ℤ)), ((0 : ℤ), (0 : ℤ))].foldl AI.mark_safe
        ⟨2, 2, ∅, ∅, ∅, [⟨{((0 : ℤ), (0 : ℤ)), ((0 : ℤ), (1 : ℤ))}, 1⟩]⟩ :=
  (mark_propagation_order_irrelevant
    ⟨2, 2, ∅, ∅, ∅, [⟨{((0 : ℤ), (0 : ℤ)), ((0 : ℤ), (1 : ℤ))}, 1⟩]⟩
    [((0 : ℤ), (0 : ℤ)), ((0 : ℤ), (1 : ℤ))]
    [((0 : ℤ), (1 : ℤ)), ((0 : ℤ), (0 : ℤ))] (by decide)).1

theorem mem_get_neighbors (st : AI) (i j x y : ℤ) :
    (x, y) ∈ st.get_neighbors (i, j) ↔
      (0 ≤ x ∧ x < st.height ∧ 0 ≤ y ∧ y < st.width ∧
        x - i ≤ 1 ∧ i - x ≤ 1 ∧ y - j ≤ 1 ∧ j - y ≤ 1 ∧ ¬(x = i ∧ y = j)) := by
  simp only [AI.get_neighbors, List.mem_filter, List.flatMap_cons, List.flatMap_nil,
    List.append_nil, List.mem_append, List.mem_cons, List.not_mem_nil, or_false,
    decide_eq_true_eq, Prod.mk.injEq, ne_eq]
  omega

theorem get_neighbors_nodup (st : AI) (cell : Cell) : (st.get_neighbors cell).Nodup := by
  apply List.Nodup.filter
  obtain ⟨i, j⟩ := cell
  show ([(i-1,j-1), (i-1,j), (i-1,j+1), (i,j-1), (i,j), (i,j+1),
         (i+1,j-1), (i+1,j), (i+1,j+1)] : List Cell).Nodup
  simp only [List.nodup_cons, List.mem_cons, List.not_mem_nil, List.nodup_nil,
    Prod.mk.injEq, not_or, or_false, and_true, true_and, not_false_iff]
  omega

theorem get_neighbors_length_le (st : AI) (cell : Cell) :
    (st.get_neighbors cell).length ≤ 8 := by
  obtain ⟨i, j⟩ := cell
  have key : ∀ (P : Cell → Bool) (l1 l2 : List Cell) (a : Cell), P a = false →
      (List.filter P (l1 ++ a :: l2)).length ≤ l1.length + l2.length := by
    intro P l1 l2 a ha
    rw [List.filter_append, List.length_append, List.filter_cons_of_neg (by simp [ha])]
    exact Nat.add_le_add (List.length_filter_le _ _) (List.length_filter_le _ _)
  exact key _ [(i-1,j-1), (i-1,j), (i-1,j+1), (i,j-1)]
    [(i,j+1), (i+1,j-1), (i+1,j), (i+1,j+1)] (i,j) (by simp)

theorem partitionNeighbors_spec (st : AI) (l : List Cell) (U : Finset Cell) (n : ℤ) :
    st.partitionNeighbors l U n =
      (U ∪ (l.filter fun p => decide (p ∉ st.safes ∧ p ∉ st.mines)).toFinset,
        n - (l.countP fun p => decide (p ∉ st.safes ∧ p ∈ st.mines) : ℤ)) := by
  induction l generalizing U n with
  | nil => simp [AI.partitionNeighbors]
  | cons c l ih =>
    by_cases hs : c ∈ st.safes
    · rw [AI.partitionNeighbors, if_pos hs, ih]
      simp only [Prod.mk.injEq]
      constructor
      · simp [List.filter_cons, hs]
      · simp [List.countP_cons, hs]
    · by_cases hm : c ∈ st.mines
      · rw [AI.partitionNeighbors, if_neg hs, if_pos hm, ih]
        simp only [Prod.mk.injEq]
        constructor
        · simp [List.filter_cons, hs, hm]
        · simp only [List.countP_cons, hs, hm]
          simp
          omega
      · rw [AI.partitionNeighbors, if_neg hs, if_neg hm, ih]
        simp only [Prod.mk.injEq]
        constructor
        · simp [List.filter_cons, hs, hm, Finset.union_insert, Finset.insert_union]
        · simp [List.countP_cons, hs, hm]

/-- Unfolding of `add_knowledge`: the ingested state (move recorded,
cell marked safe, neighbor sentence appended when non-empty) in closed
form, handed to `update_knowledge`. -/
theorem add_knowledge_eq (st : AI) (cell : Cell) (count : ℤ) (fuel : ℕ) :
    st.add_knowledge cell count fuel =
      AI.update_knowledge
        { st with
          moves_made := insert cell st.moves_made,
          safes := insert cell st.safes,
          knowledge :=
            st.knowledge.map (fun s => s.mark_safe cell) ++
              (if ((st.get_neighbors cell).filter fun p =>
                    decide (p ∉ insert cell st.safes ∧ p ∉ st.mines)).toFinset ≠ ∅ then
                [(⟨((st.get_neighbors cell).filter fun p =>
                      decide (p ∉ insert cell st.safes ∧ p ∉ st.mines)).toFinset,
                    count - ((st.get_neighbors cell).countP fun p =>
                      decide (p ∉ insert cell st.safes ∧ p ∈ st.mines) : ℤ)⟩ : Sentence)]
              else []) } fuel := by
  obtain ⟨h, w, mm, mi, sa, k⟩ := st
  rw [AI.add_knowledge]
  simp only [AI.mark_safe]
  have hn : AI.get_neighbors
      ⟨h, w, insert cell mm, mi, insert cell sa, k.map (fun s => s.mark_safe cell)⟩ cell =
      AI.get_neighbors ⟨h, w, mm, mi, sa, k⟩ cell := rfl
  rw [hn, partitionNeighbors_spec]
  simp only [Finset.empty_union]
  split_ifs with hU
  · rfl
  · simp only [List.append_nil]

/-- Claim C5: `add_knowledge(cell, count)` adds the cell to `moves_made`
and marks it safe (inserting it into `safes` and propagating `mark_safe`
to every live sentence); the computed neighbors are exactly the in-bounds
cells adjacent to the cell and distinct from it, and there are at most
eight of them; each neighbor in `safes` is dropped, each remaining
neighbor in `mines` is dropped with the count decremented once for it;
and the sentence over the remaining neighbors with the adjusted count is
appended to `knowledge` exactly when its cell set is non-empty, strictly
before the fixpoint procedure `update_knowledge` runs on the resulting
state. -/
theorem add_knowledge_spec (st : AI) (cell : Cell) (count : ℤ) (fuel : ℕ) :
    (∀ x y : ℤ, (x, y) ∈ st.get_neighbors cell ↔
      (0 ≤ x ∧ x < st.height ∧ 0 ≤ y ∧ y < st.width ∧
        x - cell.1 ≤ 1 ∧ cell.1 - x ≤ 1 ∧ y - cell.2 ≤ 1 ∧ cell.2 - y ≤ 1 ∧
        ¬(x = cell.1 ∧ y = cell.2))) ∧
    (st.get_neighbors cell).length ≤ 8 ∧
    st.add_knowledge cell count fuel =
      AI.update_knowledge
        { st with
          moves_made := insert cell st.moves_made,
          safes := insert cell st.safes,
          knowledge :=
            st.knowledge.map (fun s => s.mark_safe cell) ++
              (if ((st.get_neighbors cell).filter fun p =>
                    decide (p ∉ insert cell st.safes ∧ p ∉ st.mines)).toFinset ≠ ∅ then
                [(⟨((st.get_neighbors cell).filter fun p =>
                      decide (p ∉ insert cell st.safes ∧ p ∉ st.mines)).toFinset,
                    count - ((st.get_neighbors cell).countP fun p =>
                      decide (p ∉ insert cell st.safes ∧ p ∈ st.mines) : ℤ)⟩ : Sentence)]
              else []) } fuel :=
  ⟨fun x y => mem_get_neighbors st cell.1 cell.2 x y,
    get_neighbors_length_le st cell, add_knowledge_eq st cell count fuel⟩

/-- Witness for C5: on a fresh 2-by-2 board, the neighbor characterization
given by the theorem certifies that `(0,1)` is a neighbor of `(0,0)`. -/
theorem add_knowledge_spec_witness :
    ((0 : ℤ), (1 : ℤ)) ∈ (AI.fresh 2 2).get_neighbors ((0 : ℤ), (0 : ℤ)) :=
  ((add_knowledge_spec (AI.fresh 2 2) ((0 : ℤ), (0 : ℤ)) 0 5).1 0 1).mpr
    (by norm_num [AI.fresh])

theorem extractStep_length (st : AI) (s : Sentence) (c : Bool) :
    ((AI.extractStep st s c).1).knowledge.length = st.knowledge.length := by
  by_cases h1 : s.known_safes.Nonempty <;> by_cases h2 : s.known_mines.Nonempty <;>
      simp only [AI.extractStep, h1, h2, if_true, if_false] <;>
    simp only [AI.mark_mines_set, AI.mark_safes_set, List.length_map]

theorem extractStep_changed_true (st : AI) (s : Sentence) :
    (AI.extractStep st s true).2 = true := by
  simp only [AI.extractStep]
  split_ifs <;> rfl

theorem extractAux_changed_true (f : ℕ) :
    ∀ (st : AI) (i : ℕ), (AI.extractAux st i f true).2 = true := by
  induction f with
  | zero => intro st i; rfl
  | succ f ih =>
    intro st i
    rw [AI.extractAux]
    cases hg : st.knowledge.get? i with
    | none => rfl
    | some s =>
      simp only [hg]
      rw [extractStep_changed_true st s]
      exact ih _ _

theorem extractStep_false (st : AI) (s : Sentence)
    (h : (AI.extractStep st s false).2 = false) :
    (AI.extractStep st s false).1 = st ∧ s.known_safes = ∅ ∧ s.known_mines = ∅ := by
  by_cases h1 : s.known_safes.Nonempty <;> by_cases h2 : s.known_mines.Nonempty <;>
      simp only [AI.extractStep, h1, h2, if_true, if_false] at h ⊢ <;>
    first
      | exact Bool.noConfusion h
      | exact h.elim
      | exact ⟨Finset.not_nonempty_iff_eq_empty.mp h1,
          Finset.not_nonempty_iff_eq_empty.mp h2⟩
      | exact ⟨trivial, Finset.not_nonempty_iff_eq_empty.mp h1,
          Finset.not_nonempty_iff_eq_empty.mp h2⟩

theorem extractAux_false (f : ℕ) :
    ∀ (st : AI) (i : ℕ), (AI.extractAux st i f false).2 = false →
      (AI.extractAux st i f false).1 = st ∧
      ∀ k s, i ≤ k → k < i + f → st.knowledge.get? k = some s →
        s.known_safes = ∅ ∧ s.known_mines = ∅ := by
  induction f with
  | zero =>
    intro st i _
    exact ⟨rfl, fun k s hk hk2 _ => absurd hk2 (by omega)⟩
  | succ f ih =>
    intro st i h
    cases hg : st.knowledge.get? i with
    | none =>
      have hgoal : AI.extractAux st i (f + 1) false = (st, false) := by
        rw [AI.extractAux, hg]
      rw [hgoal]
      refine ⟨rfl, fun k s hk _ hgk => ?_⟩
      have hlen : st.knowledge.length ≤ i := by
        by_contra hlt
        push_neg at hlt
        rw [List.get?_eq_get hlt] at hg
        exact Option.noConfusion hg
      rw [List.get?_eq_none.mpr (le_trans hlen hk)] at hgk
      exact Option.noConfusion hgk
    | some s =>
      have hgoal : AI.extractAux st i (f + 1) false =
          AI.extractAux (AI.extractStep st s false).1 (i + 1) f
            (AI.extractStep st s false).2 := by
        rw [AI.extractAux, hg]
      rw [hgoal] at h ⊢
      by_cases hp2 : (AI.extractStep st s false).2 = true
      · exfalso
        rw [hp2, extractAux_changed_true] at h
        exact Bool.noConfusion h
      · have hp2' : (AI.extractStep st s false).2 = false := by
          revert hp2
          cases (AI.extractStep st s false).2 <;> simp
        obtain ⟨hst, hsf, hmn⟩ := extractStep_false st s hp2'
        rw [hp2', hst] at h ⊢
        obtain ⟨h1, h2⟩ := ih st (i + 1) h
        refine ⟨h1, fun k s' hk hk2 hgk => ?_⟩
        by_cases hki : k = i
        · subst hki
          rw [hg] at hgk
          obtain rfl : s = s' := Option.some.inj hgk
          exact ⟨hsf, hmn⟩
        · exact h2 k s' (by omega) (by omega) hgk

theorem extract_false (st : AI) (h : (st.extract false).2 = false) :
    (st.extract false).1 = st ∧
      ∀ s ∈ st.knowledge, s.known_safes = ∅ ∧ s.known_mines = ∅ := by
  obtain ⟨h1, h2⟩ := extractAux_false st.knowledge.length st 0 h
  refine ⟨h1, fun s hs => ?_⟩
  obtain ⟨⟨k, hk⟩, hgk⟩ := List.mem_iff_get.mp hs
  exact h2 k s (by omega) (by omega) (by rw [List.get?_eq_get hk, hgk])

theorem subStep_false (K : List Sentence) (s1 s2 : Sentence)
    (h : (subStep K s1 s2).2 = false) : (subStep K s1 s2).1 = K := by
  unfold subStep at h ⊢
  split_ifs at h ⊢ <;> rfl

theorem subAux_changed_true (f : ℕ) :
    ∀ (K : List Sentence) (i j : ℕ) (K' : List Sentence) (b : Bool),
      subAux K i j true f = some (K', b) → b = true := by
  induction f with
  | zero => intro K i j K' b h; exact Option.noConfusion h
  | succ f ih =>
    intro K i j K' b h
    rw [subAux] at h
    split_ifs at h with h1 h2
    · exact (Prod.ext_iff.mp (Option.some.inj h)).2.symm
    · exact ih _ _ _ _ _ h
    · rw [Bool.true_or] at h
      exact ih _ _ _ _ _ h

theorem subAux_false (f : ℕ) :
    ∀ (K : List Sentence) (i j : ℕ) (K' : List Sentence),
      subAux K i j false f = some (K', false) → K' = K := by
  induction f with
  | zero => intro K i j K' h; exact Option.noConfusion h
  | succ f ih =>
    intro K i j K' h
    rw [subAux] at h
    split_ifs at h with h1 h2
    · exact ((Prod.ext_iff.mp (Option.some.inj h)).1).symm
    · exact ih _ _ _ _ h
    · by_cases hp : (subStep K (K.get ⟨i, by omega⟩) (K.get ⟨j, by omega⟩)).2 = true
      · rw [hp, Bool.or_true] at h
        exact absurd (subAux_changed_true f _ _ _ _ _ h) Bool.false_ne_true
      · have hp' : (subStep K (K.get ⟨i, by omega⟩) (K.get ⟨j, by omega⟩)).2 = false := by
          revert hp
          cases (subStep K (K.get ⟨i, by omega⟩) (K.get ⟨j, by omega⟩)).2 <;> simp
        rw [hp', Bool.or_false] at h
        rw [ih _ _ _ _ h]
        exact subStep_false _ _ _ hp'

theorem extractStep_sets (st : AI) (s : Sentence) (c : Bool) :
    st.safes ⊆ ((AI.extractStep st s c).1).safes ∧
      st.mines ⊆ ((AI.extractStep st s c).1).mines := by
  by_cases h1 : s.known_safes.Nonempty <;> by_cases h2 : s.known_mines.Nonempty <;>
      simp only [AI.extractStep, h1, h2, if_true, if_false] <;>
    constructor <;>
      simp [AI.mark_safes_set, AI.mark_mines_set, Finset.subset_union_left]

theorem extractAux_sets (f : ℕ) :
    ∀ (st : AI) (i : ℕ) (c : Bool),
      st.safes ⊆ ((AI.extractAux st i f c).1).safes ∧
        st.mines ⊆ ((AI.extractAux st i f c).1).mines := by
  induction f with
  | zero => intro st i c; exact ⟨subset_rfl, subset_rfl⟩
  | succ f ih =>
    intro st i c
    rw [AI.extractAux]
    cases hg : st.knowledge.get? i with
    | none => exact ⟨subset_rfl, subset_rfl⟩
    | some s =>
      obtain ⟨ha, hb⟩ := extractStep_sets st s c
      obtain ⟨hc, hd⟩ := ih (AI.extractStep st s c).1 (i + 1) (AI.extractStep st s c).2
      exact ⟨ha.trans hc, hb.trans hd⟩

theorem roundFn_sets (st : AI) (f : ℕ) (st' : AI) (b : Bool)
    (h : st.roundFn f = some (st', b)) :
    st.safes ⊆ st'.safes ∧ st.mines ⊆ st'.mines := by
  unfold AI.roundFn at h
  cases heq : subAux ((st.extract false).1.gc).knowledge 0 0 (st.extract false).2 f with
  | none => rw [heq] at h; exact Option.noConfusion h
  | some q =>
    simp only [heq] at h
    have hpair := Option.some.inj h
    rw [Prod.mk.injEq] at hpair
    obtain ⟨ha, hb⟩ := extractAux_sets st.knowledge.length st 0 false
    rw [← hpair.1]
    exact ⟨ha, hb⟩

theorem updateAux_sets (r : ℕ) :
    ∀ (st : AI) (f : ℕ) (st' : AI), AI.updateAux st r f = some st' →
      st.safes ⊆ st'.safes ∧ st.mines ⊆ st'.mines := by
  induction r with
  | zero => intro st f st' h; exact Option.noConfusion h
  | succ r ih =>
    intro st f st' h
    rw [AI.updateAux] at h
    cases hr : st.roundFn f with
    | none => rw [hr] at h; exact Option.noConfusion h
    | some q =>
      simp only [hr] at h
      have hsets := roundFn_sets st f q.1 q.2 (by rw [hr])
      by_cases hq2 : q.2 = true
      · rw [if_pos hq2] at h
        obtain ⟨hc, hd⟩ := ih q.1 f st' h
        exact ⟨hsets.1.trans hc, hsets.2.trans hd⟩
      · rw [if_neg hq2] at h
        obtain rfl : q.1 = st' := Option.some.inj h
        exact hsets

theorem updateAux_last (r : ℕ) :
    ∀ (st : AI) (f : ℕ) (st' : AI), AI.updateAux st r f = some st' →
      ∃ st0 : AI, st0.roundFn f = some (st', false) := by
  induction r with
  | zero => intro st f st' h; exact Option.noConfusion h
  | succ r ih =>
    intro st f st' h
    rw [AI.updateAux] at h
    cases hr : st.roundFn f with
    | none => rw [hr] at h; exact Option.noConfusion h
    | some q =>
      simp only [hr] at h
      by_cases hq2 : q.2 = true
      · rw [if_pos hq2] at h
        exact ih q.1 f st' h
      · rw [if_neg hq2] at h
        obtain rfl : q.1 = st' := Option.some.inj h
        refine ⟨st, ?_⟩
        have hq2' : q.2 = false := by revert hq2; cases q.2 <;> simp
        rw [hr, ← hq2']

theorem roundFn_last (st0 : AI) (f : ℕ) (st' : AI)
    (h : st0.roundFn f = some (st', false)) :
    st' = st0.gc ∧ ∀ s ∈ st0.knowledge, s.known_safes = ∅ ∧ s.known_mines = ∅ := by
  unfold AI.roundFn at h
  cases heq : subAux ((st0.extract false).1.gc).knowledge 0 0 (st0.extract false).2 f with
  | none => rw [heq] at h; exact Option.noConfusion h
  | some q =>
    simp only [heq] at h
    have hpair := Option.some.inj h
    rw [Prod.mk.injEq] at hpair
    have hq2 : q.2 = false := hpair.2
    have hst' : ({ (st0.extract false).1.gc with knowledge := q.1 } : AI) = st' :=
      hpair.1
    by_cases hex : (st0.extract false).2 = true
    · exfalso
      rw [hex] at heq
      have hb := subAux_changed_true f _ 0 0 q.1 q.2 (by rw [heq])
      rw [hb] at hq2
      exact Bool.noConfusion hq2
    · have hex' : (st0.extract false).2 = false := by revert hex; cases (st0.extract false).2 <;> simp
      obtain ⟨hst0, hinert⟩ := extract_false st0 hex'
      rw [hex'] at heq
      have hK : q.1 = ((st0.extract false).1.gc).knowledge := by
        refine subAux_false f _ 0 0 q.1 (heq.trans ?_)
        rw [← hq2]
      refine ⟨?_, hinert⟩
      rw [← hst', hK, hst0]

/-- Counterexample to C2 as stated: the state whose knowledge holds the
(inconsistent) sentences `{(0,0)} = 0` and `{(0,0),(0,1)} = 2`.  At entry
the second sentence has `count = |cells| = 2`, yet when `update_knowledge`
returns, `mines` is empty: the extraction of `(0,0)` as safe from the
first sentence narrows the second to `{(0,1)} = 2` (count above cell
count) before it is ever extracted, so its cells are never added to
`mines`. -/
theorem extraction_not_eventually_mined :
    ((⟨{((0 : ℤ), (0 : ℤ)), ((0 : ℤ), (1 : ℤ))}, 2⟩ : Sentence) ∈
      (⟨2, 2, ∅, ∅, ∅, [⟨{((0 : ℤ), (0 : ℤ))}, 0⟩,
        ⟨{((0 : ℤ), (0 : ℤ)), ((0 : ℤ), (1 : ℤ))}, 2⟩]⟩ : AI).knowledge) ∧
    ((2 : ℤ) = (({((0 : ℤ), (0 : ℤ)), ((0 : ℤ), (1 : ℤ))} : Finset Cell).card : ℤ)) ∧
    AI.update_knowledge
        ⟨2, 2, ∅, ∅, ∅, [⟨{((0 : ℤ), (0 : ℤ))}, 0⟩,
          ⟨{((0 : ℤ), (0 : ℤ)), ((0 : ℤ), (1 : ℤ))}, 2⟩]⟩ 10 =
      some ⟨2, 2, ∅, ∅, {((0 : ℤ), (0 : ℤ))}, [⟨{((0 : ℤ), (1 : ℤ))}, 2⟩]⟩ ∧
    (⟨2, 2, ∅, ∅, {((0 : ℤ), (0 : ℤ))}, [⟨{((0 : ℤ), (1 : ℤ))}, 2⟩]⟩ : AI).mines = ∅ := by
  refine ⟨by decide, by decide, by decide, by decide⟩

/-- Claim C2 (amended): whenever `update_knowledge` returns, the entry
`safes` and `mines` persist into the returned state (both sets grow
monotonically through the run, so every fact extracted during the run is
still present at return), and no sentence remaining in `knowledge` has an
empty cell set, `count = 0`, or `count = |cells|`. -/
theorem update_knowledge_post (st : AI) (fuel : ℕ) (st' : AI)
    (h : st.update_knowledge fuel = some st') :
    (st.safes ⊆ st'.safes ∧ st.mines ⊆ st'.mines) ∧
      ∀ s ∈ st'.knowledge,
        s.cells ≠ ∅ ∧ s.count ≠ 0 ∧ s.count ≠ (s.cells.card : ℤ) := by
  constructor
  · exact updateAux_sets fuel st fuel st' h
  · obtain ⟨st0, h0⟩ := updateAux_last fuel st fuel st' h
    obtain ⟨rfl, hinert⟩ := roundFn_last st0 fuel st' h0
    intro s hs
    rw [AI.gc] at hs
    simp only [List.mem_filter, decide_eq_true_eq] at hs
    obtain ⟨hmem, hcell⟩ := hs
    obtain ⟨hks, hkm⟩ := hinert s hmem
    refine ⟨hcell, fun hc0 => ?_, fun hcc => ?_⟩
    · rw [Sentence.known_safes, if_pos hc0] at hks
      exact hcell hks
    · rw [Sentence.known_mines, if_pos hcc] at hkm
      exact hcell hkm

/-- Witness for C2 (amended): a concrete run in which the entry `safes`
set `{(1,1)}` persists and the final knowledge is empty. -/
theorem update_knowledge_post_witness :
    ({((1 : ℤ), (1 : ℤ))} : Finset Cell) ⊆
      (⟨2, 2, ∅, {((0 : ℤ), (0 : ℤ))}, {((1 : ℤ), (1 : ℤ))}, []⟩ : AI).safes ∧
    ∀ s ∈ (⟨2, 2, ∅, {((0 : ℤ), (0 : ℤ))}, {((1 : ℤ), (1 : ℤ))}, []⟩ : AI).knowledge,
      s.cells ≠ ∅ :=
  ⟨((update_knowledge_post ⟨2, 2, ∅, ∅, {((1 : ℤ), (1 : ℤ))}, [⟨{((0 : ℤ), (0 : ℤ))}, 1⟩]⟩
      10 ⟨2, 2, ∅, {((0 : ℤ), (0 : ℤ))}, {((1 : ℤ), (1 : ℤ))}, []⟩ (by decide)).1).1,
    fun s hs => ((update_knowledge_post
      ⟨2, 2, ∅, ∅, {((1 : ℤ), (1 : ℤ))}, [⟨{((0 : ℤ), (0 : ℤ))}, 1⟩]⟩
      10 ⟨2, 2, ∅, {((0 : ℤ), (0 : ℤ))}, {((1 : ℤ), (1 : ℤ))}, []⟩ (by decide)).2 s hs).1⟩

theorem satBy_mark_safes_set (M : Finset Cell) (s : Sentence) (S : Finset Cell)
    (hS : ∀ c ∈ S, c ∉ M) (h : satBy M s) : satBy M (s.mark_safes_set S) := by
  simp only [satBy, Sentence.mark_safes_set] at h ⊢
  have hset : (s.cells \ S) ∩ M = s.cells ∩ M := by
    ext x
    simp only [Finset.mem_inter, Finset.mem_sdiff]
    constructor
    · rintro ⟨⟨hx1, _⟩, hx2⟩
      exact ⟨hx1, hx2⟩
    · rintro ⟨hx1, hx2⟩
      exact ⟨⟨hx1, fun hxS => hS x hxS hx2⟩, hx2⟩
  rw [hset]
  exact h

theorem satBy_mark_mines_set (M : Finset Cell) (s : Sentence) (S : Finset Cell)
    (hS : S ⊆ M) (h : satBy M s) : satBy M (s.mark_mines_set S) := by
  simp only [satBy, Sentence.mark_mines_set] at h ⊢
  have hsub : s.cells ∩ S ⊆ s.cells ∩ M := fun x hx =>
    Finset.mem_inter.mpr ⟨(Finset.mem_inter.mp hx).1, hS (Finset.mem_inter.mp hx).2⟩
  have hset : (s.cells \ S) ∩ M = (s.cells ∩ M) \ (s.cells ∩ S) := by
    ext x
    simp only [Finset.mem_inter, Finset.mem_sdiff, not_and]
    constructor
    · rintro ⟨⟨h1, h2⟩, h3⟩
      exact ⟨⟨h1, h3⟩, fun _ => h2⟩
    · rintro ⟨⟨h1, h3⟩, h2⟩
      exact ⟨⟨h1, h2 h1⟩, h3⟩
  rw [hset, Finset.card_sdiff hsub]
  have hle := Finset.card_le_card hsub
  push_cast [Nat.cast_sub hle]
  omega

theorem known_safes_satBy (M : Finset Cell) (s : Sentence) (h : satBy M s)
    (hne : s.known_safes.Nonempty) :
    s.known_safes = s.cells ∧ ∀ c ∈ s.cells, c ∉ M := by
  unfold Sentence.known_safes at hne ⊢
  split_ifs at hne ⊢ with h0
  · refine ⟨rfl, fun c hc hcM => ?_⟩
    unfold satBy at h
    rw [h0] at h
    have hempty : s.cells ∩ M = ∅ := Finset.card_eq_zero.mp (by exact_mod_cast h)
    have : c ∈ s.cells ∩ M := Finset.mem_inter.mpr ⟨hc, hcM⟩
    rw [hempty] at this
    exact absurd this (Finset.not_mem_empty c)
  · exact absurd hne (by simp)

theorem known_mines_satBy (M : Finset Cell) (s : Sentence) (h : satBy M s)
    (hne : s.known_mines.Nonempty) :
    s.known_mines = s.cells ∧ s.cells ⊆ M := by
  unfold Sentence.known_mines at hne ⊢
  split_ifs at hne ⊢ with h0
  · refine ⟨rfl, fun c hc => ?_⟩
    unfold satBy at h
    rw [h0] at h
    have hcard : (s.cells ∩ M).card = s.cells.card := by exact_mod_cast h
    have heq : s.cells ∩ M = s.cells :=
      Finset.eq_of_subset_of_card_le Finset.inter_subset_left (le_of_eq hcard.symm)
    have : c ∈ s.cells ∩ M := by rw [heq]; exact hc
    exact (Finset.mem_inter.mp this).2
  · exact absurd hne (by simp)

/-- Marking one cell safe is the singleton case of the batch operation. -/
theorem mark_safe_single (s : Sentence) (c : Cell) :
    s.mark_safe c = s.mark_safes_set {c} := by
  unfold Sentence.mark_safe Sentence.mark_safes_set
  split_ifs with hc
  · congr 1
    rw [Finset.sdiff_singleton_eq_erase]
  · cases s with
    | mk cells count =>
      congr 1
      rw [Finset.sdiff_singleton_eq_erase, Finset.erase_eq_of_not_mem hc]

/-- Marking one cell as a mine is the singleton case of the batch
operation. -/
theorem mark_mine_single (s : Sentence) (c : Cell) :
    s.mark_mine c = s.mark_mines_set {c} := by
  unfold Sentence.mark_mine Sentence.mark_mines_set
  split_ifs with hc
  · have hint : s.cells ∩ {c} = {c} := by
      ext x
      simp only [Finset.mem_inter, Finset.mem_singleton]
      constructor
      · rintro ⟨_, hx⟩
        exact hx
      · rintro rfl
        exact ⟨hc, rfl⟩
    rw [Sentence.mk.injEq, hint]
    constructor
    · rw [Finset.sdiff_singleton_eq_erase]
    · simp
  · cases s with
    | mk cells count =>
      have hint : cells ∩ {c} = ∅ := by
        ext x
        simp only [Finset.mem_inter, Finset.mem_singleton, Finset.not_mem_empty,
          iff_false, not_and]
        rintro hx rfl
        exact hc hx
      rw [Sentence.mk.injEq, hint]
      constructor
      · rw [Finset.sdiff_singleton_eq_erase, Finset.erase_eq_of_not_mem hc]
      · simp

theorem AI.mark_safe_eq_set (st : AI) (c : Cell) :
    st.mark_safe c = st.mark_safes_set {c} := by
  unfold AI.mark_safe AI.mark_safes_set
  have h1 : insert c st.safes = st.safes ∪ {c} := by
    rw [Finset.union_comm]
    rfl
  rw [h1]
  have h2 : st.knowledge.map (fun s => s.mark_safe c) =
      st.knowledge.map (fun s => s.mark_safes_set {c}) :=
    List.map_congr_left fun s _ => mark_safe_single s c
  rw [h2]

theorem AI.mark_mine_eq_set (st : AI) (c : Cell) :
    st.mark_mine c = st.mark_mines_set {c} := by
  unfold AI.mark_mine AI.mark_mines_set
  have h1 : insert c st.mines = st.mines ∪ {c} := by
    rw [Finset.union_comm]
    rfl
  rw [h1]
  have h2 : st.knowledge.map (fun s => s.mark_mine c) =
      st.knowledge.map (fun s => s.mark_mines_set {c}) :=
    List.map_congr_left fun s _ => mark_mine_single s c
  rw [h2]

theorem Inv_mark_safes_set (M : Finset Cell) (st : AI) (S : Finset Cell)
    (hS : ∀ c ∈ S, c ∉ M) (h : Inv M st) : Inv M (st.mark_safes_set S) := by
  obtain ⟨h1, h2, h3⟩ := h
  refine ⟨h1, ?_, ?_⟩
  · intro c hc
    rcases Finset.mem_union.mp hc with hc | hc
    · exact h2 c hc
    · exact hS c hc
  · intro s hs
    obtain ⟨s0, hs0, rfl⟩ := List.mem_map.mp hs
    exact satBy_mark_safes_set M s0 S hS (h3 s0 hs0)

theorem Inv_mark_mines_set (M : Finset Cell) (st : AI) (S : Finset Cell)
    (hS : S ⊆ M) (h : Inv M st) : Inv M (st.mark_mines_set S) := by
  obtain ⟨h1, h2, h3⟩ := h
  refine ⟨Finset.union_subset h1 hS, h2, ?_⟩
  intro s hs
  obtain ⟨s0, hs0, rfl⟩ := List.mem_map.mp hs
  exact satBy_mark_mines_set M s0 S hS (h3 s0 hs0)

theorem Inv_extractStep (M : Finset Cell) (st : AI) (s : Sentence) (c : Bool)
    (hs : satBy M s) (h : Inv M st) : Inv M (AI.extractStep st s c).1 := by
  by_cases h1 : s.known_safes.Nonempty <;> by_cases h2 : s.known_mines.Nonempty <;>
    simp only [AI.extractStep, h1, h2, if_true, if_false]
  · obtain ⟨hks, hsub⟩ := known_mines_satBy M s hs h2
    obtain ⟨hks', hdis⟩ := known_safes_satBy M s hs h1
    exfalso
    obtain ⟨x, hx⟩ := h1
    rw [hks'] at hx
    exact hdis x hx (hsub hx)
  · obtain ⟨hks, hdis⟩ := known_safes_satBy M s hs h1
    refine Inv_mark_safes_set M st _ ?_ h
    rw [hks]
    exact hdis
  · obtain ⟨hks, hsub⟩ := known_mines_satBy M s hs h2
    refine Inv_mark_mines_set M st _ ?_ h
    rw [hks]
    exact hsub
  · exact h

/-- Generic preservation through the extraction loop: any state predicate
preserved by `extractStep` on a member sentence is preserved by the whole
loop. -/
theorem extractAux_preserve (P : AI → Prop)
    (hstep : ∀ st s c, P st → s ∈ st.knowledge → P (AI.extractStep st s c).1)
    (f : ℕ) :
    ∀ (st : AI) (i : ℕ) (c : Bool), P st → P (AI.extractAux st i f c).1 := by
  induction f with
  | zero => intro st i c h; exact h
  | succ f ih =>
    intro st i c h
    rw [AI.extractAux]
    cases hg : st.knowledge.get? i with
    | none => exact h
    | some s =>
      exact ih _ _ _ (hstep st s c h (List.get?_mem hg))

theorem Inv_extract (M : Finset Cell) (st : AI) (c : Bool) (h : Inv M st) :
    Inv M (st.extract c).1 :=
  extractAux_preserve (Inv M)
    (fun st s c hP hs => Inv_extractStep M st s c (hP.2.2 s hs) hP)
    st.knowledge.length st 0 c h

theorem Inv_gc (M : Finset Cell) (st : AI) (h : Inv M st) : Inv M st.gc := by
  obtain ⟨h1, h2, h3⟩ := h
  exact ⟨h1, h2, fun s hs => h3 s (List.mem_of_mem_filter hs)⟩

theorem subStep_preserve (Q : Sentence → Prop)
    (hQ : ∀ s1 s2, Q s1 → Q s2 → s1.cells ⊆ s2.cells →
      Q ⟨s2.cells \ s1.cells, s2.count - s1.count⟩)
    (K : List Sentence) (s1 s2 : Sentence)
    (hK : ∀ s ∈ K, Q s) (h1 : Q s1) (h2 : Q s2) :
    ∀ s ∈ (subStep K s1 s2).1, Q s := by
  unfold subStep
  split_ifs with hc hc2
  · intro s hs
    rcases List.mem_append.mp hs with hs | hs
    · exact hK s hs
    · rw [List.mem_singleton.mp hs]
      exact hQ s1 s2 h1 h2 hc.2
  · exact hK
  · exact hK

/-- Generic preservation through the subsumption loops: any sentence
predicate closed under forming the subsumption candidate is preserved. -/
theorem subAux_preserve (Q : Sentence → Prop)
    (hQ : ∀ s1 s2, Q s1 → Q s2 → s1.cells ⊆ s2.cells →
      Q ⟨s2.cells \ s1.cells, s2.count - s1.count⟩)
    (f : ℕ) :
    ∀ (K : List Sentence) (i j : ℕ) (c : Bool) (K' : List Sentence) (b : Bool),
      (∀ s ∈ K, Q s) → subAux K i j c f = some (K', b) → ∀ s ∈ K', Q s := by
  induction f with
  | zero => intro K i j c K' b _ h; exact Option.noConfusion h
  | succ f ih =>
    intro K i j c K' b hK h
    rw [subAux] at h
    split_ifs at h with hi hj
    · obtain ⟨rfl, -⟩ := Prod.mk.injEq .. |>.mp (Option.some.inj h)
      exact hK
    · exact ih _ _ _ _ _ _ hK h
    · refine ih _ _ _ _ _ _ ?_ h
      exact subStep_preserve Q hQ K _ _ hK
        (hK _ (K.get_mem _ _)) (hK _ (K.get_mem _ _))

theorem satBy_subsumption (M : Finset Cell) (s1 s2 : Sentence)
    (h1 : satBy M s1) (h2 : satBy M s2) (hsub : s1.cells ⊆ s2.cells) :
    satBy M ⟨s2.cells \ s1.cells, s2.count - s1.count⟩ := by
  unfold satBy at h1 h2 ⊢
  dsimp only
  have key := subsumption_sound_aux s1.cells s2.cells M hsub
  omega

theorem Inv_roundFn (M : Finset Cell) (st : AI) (f : ℕ) (st' : AI) (b : Bool)
    (hr : st.roundFn f = some (st', b)) (h : Inv M st) : Inv M st' := by
  unfold AI.roundFn at hr
  cases heq : subAux ((st.extract false).1.gc).knowledge 0 0 (st.extract false).2 f with
  | none => rw [heq] at hr; exact Option.noConfusion hr
  | some q =>
    simp only [heq] at hr
    have hpair := (Prod.mk.injEq .. |>.mp (Option.some.inj hr)).1
    have hInv2 : Inv M (st.extract false).1.gc := Inv_gc M _ (Inv_extract M st false h)
    obtain ⟨g1, g2, g3⟩ := hInv2
    have hq := subAux_preserve (satBy M) (satBy_subsumption M) f
      ((st.extract false).1.gc).knowledge 0 0 (st.extract false).2 q.1 q.2 g3
      (by rw [heq])
    rw [← hpair]
    exact ⟨g1, g2, hq⟩

theorem Inv_updateAux (M : Finset Cell) (r : ℕ) :
    ∀ (st : AI) (f : ℕ) (st' : AI), AI.updateAux st r f = some st' →
      Inv M st → Inv M st' := by
  induction r with
  | zero => intro st f st' h _; exact Option.noConfusion h
  | succ r ih =>
    intro st f st' h hInv
    rw [AI.updateAux] at h
    cases hr : st.roundFn f with
    | none => rw [hr] at h; exact Option.noConfusion h
    | some q =>
      simp only [hr] at h
      have hInv' := Inv_roundFn M st f q.1 q.2 (by rw [hr]) hInv
      by_cases hq2 : q.2 = true
      · rw [if_pos hq2] at h
        exact ih q.1 f st' h hInv'
      · rw [if_neg hq2] at h
        obtain rfl : q.1 = st' := Option.some.inj h
        exact hInv'

theorem Inv_update_knowledge (M : Finset Cell) (st : AI) (f : ℕ) (st' : AI)
    (h : st.update_knowledge f = some st') (hInv : Inv M st) : Inv M st' :=
  Inv_updateAux M f st f st' h hInv

/-- The sentence ingested by `add_knowledge` is satisfied by the ground
truth when the reported count is the true number of mines among the
neighbors, the revealed cell is not a mine, and the current `safes` and
`mines` are faithful to the ground truth. -/
theorem appended_satBy (M : Finset Cell) (st : AI) (cell : Cell)
    (hcell : cell ∉ M) (hmines : st.mines ⊆ M) (hsafes : ∀ c ∈ st.safes, c ∉ M) :
    satBy M
      ⟨((st.get_neighbors cell).filter fun p =>
          decide (p ∉ insert cell st.safes ∧ p ∉ st.mines)).toFinset,
        (((st.get_neighbors cell).toFinset ∩ M).card : ℤ) -
          ((st.get_neighbors cell).countP fun p =>
            decide (p ∉ insert cell st.safes ∧ p ∈ st.mines) : ℤ)⟩ := by
  unfold satBy
  dsimp only
  have hnodup := get_neighbors_nodup st cell
  have hlenf : ((st.get_neighbors cell).filter fun p =>
      decide (p ∉ insert cell st.safes ∧ p ∈ st.mines)).toFinset.card =
      (st.get_neighbors cell).countP fun p =>
        decide (p ∉ insert cell st.safes ∧ p ∈ st.mines) := by
    rw [List.toFinset_card_of_nodup (hnodup.filter _), List.countP_eq_length_filter]
  have hpart : (st.get_neighbors cell).toFinset ∩ M =
      (((st.get_neighbors cell).filter fun p =>
          decide (p ∉ insert cell st.safes ∧ p ∉ st.mines)).toFinset ∩ M) ∪
        ((st.get_neighbors cell).filter fun p =>
          decide (p ∉ insert cell st.safes ∧ p ∈ st.mines)).toFinset := by
    ext x
    simp only [Finset.mem_inter, Finset.mem_union, List.mem_toFinset, List.mem_filter,
      decide_eq_true_eq]
    constructor
    · rintro ⟨hxL, hxM⟩
      have hxs : x ∉ insert cell st.safes := by
        intro hins
        rcases Finset.mem_insert.mp hins with rfl | hxsafe
        · exact hcell hxM
        · exact hsafes x hxsafe hxM
      by_cases hxm : x ∈ st.mines
      · exact Or.inr ⟨hxL, hxs, hxm⟩
      · exact Or.inl ⟨⟨hxL, hxs, hxm⟩, hxM⟩
    · rintro (⟨⟨hxL, -, -⟩, hxM⟩ | ⟨hxL, -, hxm⟩)
      · exact ⟨hxL, hxM⟩
      · exact ⟨hxL, hmines hxm⟩
  have hdisj : Disjoint
      (((st.get_neighbors cell).filter fun p =>
          decide (p ∉ insert cell st.safes ∧ p ∉ st.mines)).toFinset ∩ M)
      ((st.get_neighbors cell).filter fun p =>
        decide (p ∉ insert cell st.safes ∧ p ∈ st.mines)).toFinset := by
    rw [Finset.disjoint_left]
    intro x hx1 hx2
    simp only [Finset.mem_inter, List.mem_toFinset, List.mem_filter,
      decide_eq_true_eq] at hx1 hx2
    exact hx1.1.2.2 hx2.2.2
  rw [hpart, Finset.card_union_of_disjoint hdisj]
  omega

theorem Inv_add_knowledge (M : Finset Cell) (st : AI) (cell : Cell) (fuel : ℕ)
    (st' : AI) (hcell : cell ∉ M)
    (h : st.add_knowledge cell
      (((st.get_neighbors cell).toFinset ∩ M).card : ℤ) fuel = some st')
    (hInv : Inv M st) : Inv M st' := by
  rw [add_knowledge_eq] at h
  refine Inv_update_knowledge M _ fuel st' h ?_
  obtain ⟨h1, h2, h3⟩ := hInv
  refine ⟨h1, ?_, ?_⟩
  · intro c hc
    rcases Finset.mem_insert.mp hc with rfl | hc
    · exact hcell
    · exact h2 c hc
  · intro s hs
    rcases List.mem_append.mp hs with hs | hs
    · obtain ⟨s0, hs0, rfl⟩ := List.mem_map.mp hs
      rw [mark_safe_single]
      refine satBy_mark_safes_set M s0 {cell} ?_ (h3 s0 hs0)
      intro c hc
      rw [Finset.mem_singleton] at hc
      subst hc
      exact hcell
    · by_cases hU : ((st.get_neighbors cell).filter fun p =>
          decide (p ∉ insert cell st.safes ∧ p ∉ st.mines)).toFinset ≠ ∅
      · rw [if_pos hU] at hs
        rw [List.mem_singleton.mp hs]
        exact appended_satBy M st cell hcell h1 h2
      · rw [if_neg hU] at hs
        exact absurd hs (List.not_mem_nil s)

theorem Reach_Inv (h w : ℤ) (M : Finset Cell) (st : AI)
    (hr : Reach h w M st) : Inv M st := by
  induction hr with
  | init =>
    refine ⟨?_, ?_, ?_⟩
    · intro c hc
      exact absurd hc (Finset.not_mem_empty c)
    · intro c hc
      exact absurd hc (Finset.not_mem_empty c)
    · intro s hs
      exact absurd hs (List.not_mem_nil s)
  | add_step st st' cell fuel _ hcell hadd ih =>
    exact Inv_add_knowledge M st cell fuel st' hcell hadd ih
  | mine_step st c _ hc ih =>
    rw [AI.mark_mine_eq_set]
    refine Inv_mark_mines_set M st {c} ?_ ih
    intro x hx
    rw [Finset.mem_singleton] at hx
    subst hx
    exact hc
  | safe_step st c _ hc ih =>
    rw [AI.mark_safe_eq_set]
    refine Inv_mark_safes_set M st {c} ?_ ih
    intro x hx
    rw [Finset.mem_singleton] at hx
    subst hx
    exact hc

/-- Claim C6: in every state reachable through the operation contract
(observations consistent with an actual mine assignment `M`), every live
sentence satisfies `0 ≤ count ≤ |cells|`. -/
theorem sentence_count_invariant (h w : ℤ) (M : Finset Cell) (st : AI)
    (hr : Reach h w M st) :
    ∀ s ∈ st.knowledge, 0 ≤ s.count ∧ s.count ≤ (s.cells.card : ℤ) := by
  have hInv := Reach_Inv h w M st hr
  intro s hs
  have hsat := hInv.2.2 s hs
  unfold satBy at hsat
  constructor
  · rw [← hsat]
    exact_mod_cast Nat.zero_le _
  · rw [← hsat]
    exact_mod_cast Finset.card_le_card Finset.inter_subset_left

/-- Witness for C6: a concrete contract-respecting run (reveal `(0,0)`
on a 2-by-2 board whose only mine is `(1,1)`) reaches a state whose
single sentence `{(0,1),(1,0),(1,1)} = 1` satisfies the bounds. -/
theorem sentence_count_invariant_witness :
    0 ≤ (1 : ℤ) ∧ (1 : ℤ) ≤
      ((({((0 : ℤ), (1 : ℤ)), ((1 : ℤ), (0 : ℤ)), ((1 : ℤ), (1 : ℤ))} :
        Finset Cell)).card : ℤ) :=
  sentence_count_invariant 2 2 {((1 : ℤ), (1 : ℤ))}
    ⟨2, 2, {((0 : ℤ), (0 : ℤ))}, ∅, {((0 : ℤ), (0 : ℤ))},
      [⟨{((0 : ℤ), (1 : ℤ)), ((1 : ℤ), (0 : ℤ)), ((1 : ℤ), (1 : ℤ))}, 1⟩]⟩
    (Reach.add_step (AI.fresh 2 2) _ ((0 : ℤ), (0 : ℤ)) 5 Reach.init
      (by decide) (by decide))
    ⟨{((0 : ℤ), (1 : ℤ)), ((1 : ℤ), (0 : ℤ)), ((1 : ℤ), (1 : ℤ))}, 1⟩
    (by decide)

/-- Counterexample to C7 as stated: the claim quantifies over arbitrary
sequences of the public operations, and two calls suffice to break
disjointness — `mark_mine((0,0))` followed by `mark_safe((0,0))` on a
fresh 1-by-1 instance leaves `(0,0)` in both `mines` and `safes`. -/
theorem mark_operations_break_disjointness :
    ((0 : ℤ), (0 : ℤ)) ∈
        (((AI.fresh 1 1).mark_mine ((0 : ℤ), (0 : ℤ))).mark_safe
          ((0 : ℤ), (0 : ℤ))).mines ∧
    ((0 : ℤ), (0 : ℤ)) ∈
        (((AI.fresh 1 1).mark_mine ((0 : ℤ), (0 : ℤ))).mark_safe
          ((0 : ℤ), (0 : ℤ))).safes := by
  exact ⟨by decide, by decide⟩

/-- Claim C7 (amended): in every state reachable from a fresh instance
by operation sequences that respect the contract (observations and marks
consistent with a ground-truth mine assignment `M`), `mines` and `safes`
are disjoint.  Unrestricted `mark_mine`/`mark_safe` calls can break
disjointness in two steps. -/
theorem mine_safe_disjoint (h w : ℤ) (M : Finset Cell) (st : AI)
    (hr : Reach h w M st) : st.mines ∩ st.safes = ∅ := by
  have hInv := Reach_Inv h w M st hr
  ext c
  simp only [Finset.mem_inter, Finset.not_mem_empty, iff_false, not_and]
  intro hm hs
  exact hInv.2.1 c hs (hInv.1 hm)

/-- Witness for C7 (amended) at the concrete contract-respecting run of
the C6 witness. -/
theorem mine_safe_disjoint_witness :
    (⟨2, 2, {((0 : ℤ), (0 : ℤ))}, ∅, {((0 : ℤ), (0 : ℤ))},
      [⟨{((0 : ℤ), (1 : ℤ)), ((1 : ℤ), (0 : ℤ)), ((1 : ℤ), (1 : ℤ))}, 1⟩]⟩ : AI).mines ∩
      (⟨2, 2, {((0 : ℤ), (0 : ℤ))}, ∅, {((0 : ℤ), (0 : ℤ))},
        [⟨{((0 : ℤ), (1 : ℤ)), ((1 : ℤ), (0 : ℤ)), ((1 : ℤ), (1 : ℤ))}, 1⟩]⟩ : AI).safes = ∅ :=
  mine_safe_disjoint 2 2 {((1 : ℤ), (1 : ℤ))} _
    (Reach.add_step (AI.fresh 2 2) _ ((0 : ℤ), (0 : ℤ)) 5 Reach.init
      (by decide) (by decide))

theorem HB_mark_safes_set (st : AI) (S : Finset Cell) (h : HB st) :
    HB (st.mark_safes_set S) := by
  intro s hs
  obtain ⟨s0, hs0, rfl⟩ := List.mem_map.mp hs
  obtain ⟨h1, h2, h3⟩ := h s0 hs0
  refine ⟨?_, ?_, ?_⟩ <;> intro c hc <;>
    obtain ⟨hc0, hcS⟩ := Finset.mem_sdiff.mp hc
  · intro hcu
    rcases Finset.mem_union.mp hcu with hcu | hcu
    · exact h1 c hc0 hcu
    · exact hcS hcu
  · exact h2 c hc0
  · exact h3 c hc0

theorem HB_mark_mines_set (st : AI) (S : Finset Cell) (h : HB st) :
    HB (st.mark_mines_set S) := by
  intro s hs
  obtain ⟨s0, hs0, rfl⟩ := List.mem_map.mp hs
  obtain ⟨h1, h2, h3⟩ := h s0 hs0
  refine ⟨?_, ?_, ?_⟩ <;> intro c hc <;>
    obtain ⟨hc0, hcS⟩ := Finset.mem_sdiff.mp hc
  · exact h1 c hc0
  · intro hcu
    rcases Finset.mem_union.mp hcu with hcu | hcu
    · exact h2 c hc0 hcu
    · exact hcS hcu
  · exact h3 c hc0

theorem HB_extractStep (st : AI) (s : Sentence) (c : Bool) (h : HB st) :
    HB (AI.extractStep st s c).1 := by
  by_cases h1 : s.known_safes.Nonempty <;> by_cases h2 : s.known_mines.Nonempty <;>
    simp only [AI.extractStep, h1, h2, if_true, if_false]
  · exact HB_mark_mines_set _ _ (HB_mark_safes_set _ _ h)
  · exact HB_mark_safes_set _ _ h
  · exact HB_mark_mines_set _ _ h
  · exact h

theorem HB_gc (st : AI) (h : HB st) : HB st.gc := by
  intro s hs
  exact h s (List.mem_of_mem_filter hs)

theorem HB_roundFn (st : AI) (f : ℕ) (st' : AI) (b : Bool)
    (hr : st.roundFn f = some (st', b)) (h : HB st) : HB st' := by
  unfold AI.roundFn at hr
  cases heq : subAux ((st.extract false).1.gc).knowledge 0 0 (st.extract false).2 f with
  | none => rw [heq] at hr; exact Option.noConfusion hr
  | some q =>
    simp only [heq] at hr
    have hpair := (Prod.mk.injEq .. |>.mp (Option.some.inj hr)).1
    have hHB2 : HB (st.extract false).1.gc :=
      HB_gc _ (extractAux_preserve HB (fun st s c hP _ => HB_extractStep st s c hP)
        st.knowledge.length st 0 false h)
    have hq := subAux_preserve
      (fun s => (∀ c ∈ s.cells, c ∉ ((st.extract false).1.gc).safes) ∧
        (∀ c ∈ s.cells, c ∉ ((st.extract false).1.gc).mines) ∧
        ∀ c ∈ s.cells, 0 ≤ c.1 ∧ c.1 < ((st.extract false).1.gc).height ∧
          0 ≤ c.2 ∧ c.2 < ((st.extract false).1.gc).width)
      (by
        rintro s1 s2 ⟨-, -, -⟩ ⟨g1, g2, g3⟩ -
        refine ⟨?_, ?_, ?_⟩ <;> intro c hc <;>
          obtain ⟨hc2, -⟩ := Finset.mem_sdiff.mp hc
        · exact g1 c hc2
        · exact g2 c hc2
        · exact g3 c hc2)
      f ((st.extract false).1.gc).knowledge 0 0 (st.extract false).2 q.1 q.2
      hHB2 (by rw [heq])
    rw [← hpair]
    intro s hs
    exact hq s hs

theorem HB_updateAux (r : ℕ) :
    ∀ (st : AI) (f : ℕ) (st' : AI), AI.updateAux st r f = some st' →
      HB st → HB st' := by
  induction r with
  | zero => intro st f st' h _; exact Option.noConfusion h
  | succ r ih =>
    intro st f st' h hHB
    rw [AI.updateAux] at h
    cases hr : st.roundFn f with
    | none => rw [hr] at h; exact Option.noConfusion h
    | some q =>
      simp only [hr] at h
      have hHB' := HB_roundFn st f q.1 q.2 (by rw [hr]) hHB
      by_cases hq2 : q.2 = true
      · rw [if_pos hq2] at h
        exact ih q.1 f st' h hHB'
      · rw [if_neg hq2] at h
        obtain rfl : q.1 = st' := Option.some.inj h
        exact hHB'

theorem HB_add_knowledge (st : AI) (cell : Cell) (count : ℤ) (fuel : ℕ)
    (st' : AI) (h : st.add_knowledge cell count fuel = some st')
    (hHB : HB st) : HB st' := by
  rw [add_knowledge_eq] at h
  refine HB_updateAux fuel _ fuel st' h ?_
  intro s hs
  rcases List.mem_append.mp hs with hs | hs
  · obtain ⟨s0, hs0, rfl⟩ := List.mem_map.mp hs
    obtain ⟨h1, h2, h3⟩ := hHB s0 hs0
    rw [mark_safe_single]
    refine ⟨?_, ?_, ?_⟩ <;> intro c hc <;>
      obtain ⟨hc0, hcS⟩ := Finset.mem_sdiff.mp hc
    · intro hcu
      rcases Finset.mem_insert.mp hcu with rfl | hcu
      · exact hcS (Finset.mem_singleton_self c)
      · exact h1 c hc0 hcu
    · exact h2 c hc0
    · exact h3 c hc0
  · by_cases hU : ((st.get_neighbors cell).filter fun p =>
        decide (p ∉ insert cell st.safes ∧ p ∉ st.mines)).toFinset ≠ ∅
    · rw [if_pos hU] at hs
      rw [List.mem_singleton.mp hs]
      refine ⟨?_, ?_, ?_⟩ <;> intro c hc <;>
        · simp only [List.mem_toFinset, List.mem_filter, decide_eq_true_eq] at hc
          obtain ⟨hcL, hcs, hcm⟩ := hc
          first
            | exact hcs
            | exact hcm
            | · obtain ⟨x, y⟩ := c
                have := (mem_get_neighbors st cell.1 cell.2 x y).mp hcL
                exact ⟨this.1, this.2.1, this.2.2.1, this.2.2.2.1⟩
    · rw [if_neg hU] at hs
      exact absurd hs (List.not_mem_nil s)

theorem ReachAny_HB (st : AI) (hr : ReachAny st) : HB st := by
  induction hr with
  | init h w => intro s hs; exact absurd hs (List.not_mem_nil s)
  | add_step st st' cell count fuel _ hadd ih =>
    exact HB_add_knowledge st cell count fuel st' hadd ih
  | mine_step st c _ ih =>
    rw [AI.mark_mine_eq_set]
    exact HB_mark_mines_set st {c} ih
  | safe_step st c _ ih =>
    rw [AI.mark_safe_eq_set]
    exact HB_mark_safes_set st {c} ih

theorem update_knowledge_fixpoint (st : AI) (fuel : ℕ) (st' : AI)
    (h : st.update_knowledge fuel = some st') :
    ∀ s ∈ st'.knowledge,
      s.cells ≠ ∅ ∧ s.count ≠ 0 ∧ s.count ≠ (s.cells.card : ℤ) := by
  obtain ⟨st0, h0⟩ := updateAux_last fuel st fuel st' h
  obtain ⟨rfl, hinert⟩ := roundFn_last st0 fuel st' h0
  intro s hs
  rw [AI.gc] at hs
  simp only [List.mem_filter, decide_eq_true_eq] at hs
  obtain ⟨hmem, hcell⟩ := hs
  obtain ⟨hks, hkm⟩ := hinert s hmem
  refine ⟨hcell, fun hc0 => ?_, fun hcc => ?_⟩
  · rw [Sentence.known_safes, if_pos hc0] at hks
    exact hcell hks
  · rw [Sentence.known_mines, if_pos hcc] at hkm
    exact hcell hkm

/-- Claim C10: whenever `add_knowledge` returns on a state reachable by
any sequence of the public mutating operations (with arbitrary
arguments), every sentence remaining in `knowledge` has a non-empty cell
set, all its cells lie within the board bounds, and its cell set is
disjoint from both `mines` and `safes`. -/
theorem add_knowledge_hygiene (st : AI) (cell : Cell) (count : ℤ) (fuel : ℕ)
    (st' : AI) (hr : ReachAny st)
    (h : st.add_knowledge cell count fuel = some st') :
    ∀ s ∈ st'.knowledge,
      s.cells ≠ ∅ ∧
      (∀ c ∈ s.cells, 0 ≤ c.1 ∧ c.1 < st'.height ∧ 0 ≤ c.2 ∧ c.2 < st'.width) ∧
      (∀ c ∈ s.cells, c ∉ st'.mines) ∧ ∀ c ∈ s.cells, c ∉ st'.safes := by
  have hr' : ReachAny st' := ReachAny.add_step st st' cell count fuel hr h
  have hHB := ReachAny_HB st' hr'
  have hne : ∀ s ∈ st'.knowledge, s.cells ≠ ∅ := by
    rw [add_knowledge_eq] at h
    intro s hs
    exact (update_knowledge_fixpoint _ fuel st' h s hs).1
  intro s hs
  obtain ⟨h1, h2, h3⟩ := hHB s hs
  exact ⟨hne s hs, h3, h2, h1⟩

/-- Witness for C10: the concrete run revealing `(0,0)` with count 1 on
a fresh 2-by-2 instance; the surviving sentence
`{(0,1),(1,0),(1,1)} = 1` is non-empty, in bounds, and disjoint from the
final `mines` and `safes`. -/
theorem add_knowledge_hygiene_witness :
    (⟨{((0 : ℤ), (1 : ℤ)), ((1 : ℤ), (0 : ℤ)), ((1 : ℤ), (1 : ℤ))}, 1⟩ : Sentence).cells ≠ ∅ :=
  (add_knowledge_hygiene (AI.fresh 2 2) ((0 : ℤ), (0 : ℤ)) 1 5
    ⟨2, 2, {((0 : ℤ), (0 : ℤ))}, ∅, {((0 : ℤ), (0 : ℤ))},
      [⟨{((0 : ℤ), (1 : ℤ)), ((1 : ℤ), (0 : ℤ)), ((1 : ℤ), (1 : ℤ))}, 1⟩]⟩
    (ReachAny.init 2 2) (by decide)
    ⟨{((0 : ℤ), (1 : ℤ)), ((1 : ℤ), (0 : ℤ)), ((1 : ℤ), (1 : ℤ))}, 1⟩
    (by decide)).1

theorem subAux_mono (f : ℕ) :
    ∀ (f' : ℕ) (K : List Sentence) (i j : ℕ) (c : Bool) (x : List Sentence × Bool),
      f ≤ f' → subAux K i j c f = some x → subAux K i j c f' = some x := by
  induction f with
  | zero => intro f' K i j c x _ h; exact Option.noConfusion h
  | succ f ih =>
    intro f' K i j c x hle h
    obtain ⟨f'', rfl⟩ : ∃ f'', f' = f'' + 1 := ⟨f' - 1, by omega⟩
    rw [subAux] at h ⊢
    split_ifs at h ⊢ with h1 h2
    · exact h
    · exact ih f'' _ _ _ _ _ (by omega) h
    · exact ih f'' _ _ _ _ _ (by omega) h

theorem roundFn_mono (st : AI) (f f' : ℕ) (q : AI × Bool) (hle : f ≤ f')
    (h : st.roundFn f = some q) : st.roundFn f' = some q := by
  unfold AI.roundFn at h ⊢
  cases heq : subAux ((st.extract false).1.gc).knowledge 0 0 (st.extract false).2 f with
  | none => rw [heq] at h; exact Option.noConfusion h
  | some p =>
    rw [subAux_mono f f' _ 0 0 _ p hle heq]
    rw [heq] at h
    exact h

theorem updateAux_mono_sub (r : ℕ) :
    ∀ (st : AI) (f f' : ℕ) (x : AI), f ≤ f' →
      AI.updateAux st r f = some x → AI.updateAux st r f' = some x := by
  induction r with
  | zero => intro st f f' x _ h; exact Option.noConfusion h
  | succ r ih =>
    intro st f f' x hle h
    rw [AI.updateAux] at h ⊢
    cases hr : st.roundFn f with
    | none => rw [hr] at h; exact Option.noConfusion h
    | some q =>
      rw [roundFn_mono st f f' q hle hr]
      simp only [hr] at h
      simp only []
      by_cases hq2 : q.2 = true
      · rw [if_pos hq2] at h ⊢
        exact ih q.1 f f' x hle h
      · rw [if_neg hq2] at h ⊢
        exact h

theorem updateAux_mono_rounds (r : ℕ) :
    ∀ (r' : ℕ) (st : AI) (f : ℕ) (x : AI), r ≤ r' →
      AI.updateAux st r f = some x → AI.updateAux st r' f = some x := by
  induction r with
  | zero => intro r' st f x _ h; exact Option.noConfusion h
  | succ r ih =>
    intro r' st f x hle h
    obtain ⟨r'', rfl⟩ : ∃ r'', r' = r'' + 1 := ⟨r' - 1, by omega⟩
    rw [AI.updateAux] at h ⊢
    cases hr : st.roundFn f with
    | none => rw [hr] at h; exact Option.noConfusion h
    | some q =>
      simp only [hr] at h ⊢
      by_cases hq2 : q.2 = true
      · rw [if_pos hq2] at h ⊢
        exact ih r'' q.1 f x (by omega) h
      · rw [if_neg hq2] at h ⊢
        exact h

theorem ExtOf.refl (K0 : List Sentence) : ExtOf K0 K0 :=
  ⟨[], by simp, List.nodup_nil, fun a ha => absurd ha (List.not_mem_nil a),
    fun a ha => absurd ha (List.not_mem_nil a)⟩

theorem ExtOf.trans (K0 K1 K2 : List Sentence)
    (h1 : ExtOf K0 K1) (h2 : ExtOf K1 K2) : ExtOf K0 K2 := by
  obtain ⟨A, rfl, hA1, hA2, hA3⟩ := h1
  obtain ⟨B, rfl, hB1, hB2, hB3⟩ := h2
  refine ⟨A ++ B, by rw [List.append_assoc], ?_, ?_, ?_⟩
  · rw [List.nodup_append]
    refine ⟨hA1, hB1, ?_⟩
    intro a haA hbB
    exact hB2 a hbB (List.mem_append.mpr (Or.inr haA))
  · intro a ha
    rcases List.mem_append.mp ha with ha | ha
    · exact hA2 a ha
    · intro hK0
      exact hB2 a ha (List.mem_append.mpr (Or.inl hK0))
  · intro a ha
    rcases List.mem_append.mp ha with ha | ha
    · exact hA3 a ha
    · exact hB3 a ha

theorem ExtOf.length_le (K0 K : List Sentence) (h : ExtOf K0 K) :
    K0.length ≤ K.length := by
  obtain ⟨A, rfl, -, -, -⟩ := h
  rw [List.length_append]
  omega

theorem subStep_ext (K : List Sentence) (s1 s2 : Sentence) :
    ExtOf K (subStep K s1 s2).1 := by
  unfold subStep
  split_ifs with hc hc2
  · exact ⟨[⟨s2.cells \ s1.cells, s2.count - s1.count⟩], rfl,
      List.nodup_singleton _,
      fun a ha => by rw [List.mem_singleton.mp ha]; exact hc2.1,
      fun a ha => by rw [List.mem_singleton.mp ha]; exact hc2.2⟩
  · exact ExtOf.refl K
  · exact ExtOf.refl K

theorem subAux_ext (f : ℕ) :
    ∀ (K : List Sentence) (i j : ℕ) (c : Bool) (K' : List Sentence) (b : Bool),
      subAux K i j c f = some (K', b) → ExtOf K K' := by
  induction f with
  | zero => intro K i j c K' b h; exact Option.noConfusion h
  | succ f ih =>
    intro K i j c K' b h
    rw [subAux] at h
    split_ifs at h with h1 h2
    · obtain ⟨rfl, -⟩ := Prod.mk.injEq .. |>.mp (Option.some.inj h)
      exact ExtOf.refl K
    · exact ih _ _ _ _ _ _ h
    · exact ExtOf.trans _ _ _ (subStep_ext K _ _) (ih _ _ _ _ _ _ h)

theorem subStep_true_length (K : List Sentence) (s1 s2 : Sentence)
    (h : (subStep K s1 s2).2 = true) :
    (subStep K s1 s2).1.length = K.length + 1 := by
  unfold subStep at h ⊢
  split_ifs at h ⊢ <;> simp

theorem subAux_grow (f : ℕ) :
    ∀ (K : List Sentence) (i j : ℕ) (K' : List Sentence),
      subAux K i j false f = some (K', true) → K.length < K'.length := by
  induction f with
  | zero => intro K i j K' h; exact Option.noConfusion h
  | succ f ih =>
    intro K i j K' h
    rw [subAux] at h
    split_ifs at h with h1 h2
    · exact absurd (Prod.mk.injEq .. |>.mp (Option.some.inj h)).2 (by simp)
    · exact ih _ _ _ _ h
    · by_cases hp : (subStep K (K.get ⟨i, by omega⟩) (K.get ⟨j, by omega⟩)).2 = true
      · have hlen := subStep_true_length K _ _ hp
        have hext := subAux_ext f _ i (j + 1) _ K' true h
        have := hext.length_le
        omega
      · have hp' : (subStep K (K.get ⟨i, by omega⟩) (K.get ⟨j, by omega⟩)).2 = false := by
          revert hp
          cases (subStep K (K.get ⟨i, by omega⟩) (K.get ⟨j, by omega⟩)).2 <;> simp
        rw [hp', Bool.or_false] at h
        have := ih _ _ _ _ h
        rw [subStep_false K _ _ hp'] at this
        exact this

theorem Good_subsumption (U M : Finset Cell) (s1 s2 : Sentence)
    (h1 : Good U M s1) (h2 : Good U M s2) (hsub : s1.cells ⊆ s2.cells) :
    Good U M ⟨s2.cells \ s1.cells, s2.count - s1.count⟩ :=
  ⟨fun c hc => h2.1 ((Finset.mem_sdiff.mp hc).1),
    satBy_subsumption M s1 s2 h1.2 h2.2 hsub⟩

/-- Two satisfied sentences with the same cell set are equal: the count
is determined by the cells. -/
theorem good_cells_inj (M : Finset Cell) (s t : Sentence)
    (hs : satBy M s) (ht : satBy M t) (h : s.cells = t.cells) : s = t := by
  cases s with
  | mk cs ns =>
    cases t with
    | mk ct nt =>
      unfold satBy at hs ht
      dsimp only at hs ht h
      subst h
      rw [Sentence.mk.injEq]
      exact ⟨rfl, by omega⟩

theorem good_nodup_length (U M : Finset Cell) (A : List Sentence)
    (hnodup : A.Nodup) (h : ∀ s ∈ A, Good U M s) :
    A.length ≤ U.powerset.card := by
  rw [← List.toFinset_card_of_nodup hnodup]
  refine Finset.card_le_card_of_injOn (fun s => s.cells) ?_ ?_
  · intro s hs
    rw [Finset.mem_powerset]
    exact (h s (List.mem_toFinset.mp hs)).1
  · intro s hs t ht hcells
    exact good_cells_inj M s t (h s (List.mem_toFinset.mp hs)).2
      (h t (List.mem_toFinset.mp ht)).2 hcells

theorem good_toFinset_card (U M : Finset Cell) (K : List Sentence)
    (h : ∀ s ∈ K, Good U M s) : K.toFinset.card ≤ U.powerset.card := by
  refine Finset.card_le_card_of_injOn (fun s => s.cells) ?_ ?_
  · intro s hs
    rw [Finset.mem_powerset]
    exact (h s (List.mem_toFinset.mp hs)).1
  · intro s hs t ht hcells
    exact good_cells_inj M s t (h s (List.mem_toFinset.mp hs)).2
      (h t (List.mem_toFinset.mp ht)).2 hcells

theorem ext_length_le (U M : Finset Cell) (K0 K : List Sentence)
    (hext : ExtOf K0 K) (hgood : ∀ s ∈ K, Good U M s) :
    K.length ≤ K0.length + U.powerset.card := by
  obtain ⟨A, rfl, hA1, -, -⟩ := hext
  rw [List.length_append]
  have : A.length ≤ U.powerset.card :=
    good_nodup_length U M A hA1
      (fun s hs => hgood s (List.mem_append.mpr (Or.inr hs)))
  omega

theorem subStep_length_ge (K : List Sentence) (s1 s2 : Sentence) :
    K.length ≤ (subStep K s1 s2).1.length :=
  (subStep_ext K s1 s2).length_le

/-- Termination of the subsumption pass: with every sentence `Good` and
the list an extension of `K0`, the pass completes within fuel governed
by the measure `(B + 1 − i) * (B + 2) + (B + 1 − j)` where
`B = |K0| + 2 ^ |U|` bounds the list length. -/
theorem subAux_term (U M : Finset Cell) (K0 : List Sentence) (n : ℕ) :
    ∀ (K : List Sentence) (i j : ℕ) (c : Bool),
      ExtOf K0 K → (∀ s ∈ K, Good U M s) →
      i ≤ K.length → j ≤ K.length →
      (K0.length + U.powerset.card + 1 - i) * (K0.length + U.powerset.card + 2) +
        (K0.length + U.powerset.card + 1 - j) ≤ n →
      (subAux K i j c (n + 1)).isSome := by
  induction n using Nat.strong_induction_on with
  | _ n ih =>
    intro K i j c hext hgood hi hj hm
    have hlen : K.length ≤ K0.length + U.powerset.card :=
      ext_length_le U M K0 K hext hgood
    rw [subAux]
    split_ifs with h1 h2
    · exact Option.isSome_some
    · obtain ⟨m, rfl⟩ : ∃ m, n = m + 1 := by
        refine ⟨n - 1, ?_⟩
        have hB : i < K0.length + U.powerset.card + 1 := by omega
        have : 2 ≤ (K0.length + U.powerset.card + 1 - i) *
            (K0.length + U.powerset.card + 2) + (K0.length + U.powerset.card + 1 - j) := by
          have h3 : 1 ≤ K0.length + U.powerset.card + 1 - i := by omega
          have h4 : 2 ≤ K0.length + U.powerset.card + 2 := by omega
          nlinarith
        omega
      exact ih m (by omega) K (i + 1) 0 c hext hgood (by omega) (by omega) (by
        have hij : i < K.length := by omega
        have hjK : j = K.length ∨ K.length < j := by omega
        have hkey : (K0.length + U.powerset.card + 1 - (i + 1)) *
            (K0.length + U.powerset.card + 2) + (K0.length + U.powerset.card + 1 - 0) + 1 ≤
            (K0.length + U.powerset.card + 1 - i) * (K0.length + U.powerset.card + 2) +
              (K0.length + U.powerset.card + 1 - j) := by
          have e1 : K0.length + U.powerset.card + 1 - i =
              (K0.length + U.powerset.card + 1 - (i + 1)) + 1 := by omega
          rw [e1]
          have e2 : j ≤ K0.length + U.powerset.card := by omega
          ring_nf
          omega
        omega)
    · obtain ⟨m, rfl⟩ : ∃ m, n = m + 1 := by
        refine ⟨n - 1, ?_⟩
        have h3 : 1 ≤ K0.length + U.powerset.card + 1 - j := by omega
        have h4 : 0 ≤ (K0.length + U.powerset.card + 1 - i) *
            (K0.length + U.powerset.card + 2) := Nat.zero_le _
        omega
      have hextK' := subStep_ext K (K.get ⟨i, by omega⟩) (K.get ⟨j, by omega⟩)
      have hgoodK' : ∀ s ∈ (subStep K (K.get ⟨i, by omega⟩) (K.get ⟨j, by omega⟩)).1,
          Good U M s :=
        subStep_preserve (Good U M) (Good_subsumption U M) K _ _ hgood
          (hgood _ (K.get_mem _ _)) (hgood _ (K.get_mem _ _))
      have hlenK' := subStep_length_ge K (K.get ⟨i, by omega⟩) (K.get ⟨j, by omega⟩)
      refine ih m (by omega) _ i (j + 1) _ (ExtOf.trans _ _ _ hext hextK') hgoodK'
        (by omega) (by omega) (by omega)

theorem StInv_mark_safes_set (U M : Finset Cell) (st : AI) (S : Finset Cell)
    (hS : ∀ c ∈ S, c ∉ M) (h : StInv U M st) : StInv U M (st.mark_safes_set S) := by
  intro s hs
  obtain ⟨s0, hs0, rfl⟩ := List.mem_map.mp hs
  obtain ⟨⟨hg1, hg2⟩, h1, h2⟩ := h s0 hs0
  refine ⟨⟨fun c hc => hg1 (Finset.mem_sdiff.mp hc).1,
    satBy_mark_safes_set M s0 S hS hg2⟩, ?_, ?_⟩ <;> intro c hc <;>
    obtain ⟨hc0, hcS⟩ := Finset.mem_sdiff.mp hc
  · intro hcu
    rcases Finset.mem_union.mp hcu with hcu | hcu
    · exact h1 c hc0 hcu
    · exact hcS hcu
  · exact h2 c hc0

theorem StInv_mark_mines_set (U M : Finset Cell) (st : AI) (S : Finset Cell)
    (hS : S ⊆ M) (h : StInv U M st) : StInv U M (st.mark_mines_set S) := by
  intro s hs
  obtain ⟨s0, hs0, rfl⟩ := List.mem_map.mp hs
  obtain ⟨⟨hg1, hg2⟩, h1, h2⟩ := h s0 hs0
  refine ⟨⟨fun c hc => hg1 (Finset.mem_sdiff.mp hc).1,
    satBy_mark_mines_set M s0 S hS hg2⟩, ?_, ?_⟩ <;> intro c hc <;>
    obtain ⟨hc0, hcS⟩ := Finset.mem_sdiff.mp hc
  · exact h1 c hc0
  · intro hcu
    rcases Finset.mem_union.mp hcu with hcu | hcu
    · exact h2 c hc0 hcu
    · exact hcS hcu

theorem StInv_extractStep (U M : Finset Cell) (st : AI) (s : Sentence) (c : Bool)
    (hs : s ∈ st.knowledge) (h : StInv U M st) :
    StInv U M (AI.extractStep st s c).1 := by
  have hsat : satBy M s := (h s hs).1.2
  by_cases h1 : s.known_safes.Nonempty <;> by_cases h2 : s.known_mines.Nonempty <;>
    simp only [AI.extractStep, h1, h2, if_true, if_false]
  · exfalso
    obtain ⟨hks, hsub⟩ := known_mines_satBy M s hsat h2
    obtain ⟨hks', hdis⟩ := known_safes_satBy M s hsat h1
    obtain ⟨x, hx⟩ := h1
    rw [hks'] at hx
    exact hdis x hx (hsub hx)
  · obtain ⟨hks, hdis⟩ := known_safes_satBy M s hsat h1
    refine StInv_mark_safes_set U M st _ ?_ h
    rw [hks]
    exact hdis
  · obtain ⟨hks, hsub⟩ := known_mines_satBy M s hsat h2
    refine StInv_mark_mines_set U M st _ ?_ h
    rw [hks]
    exact hsub
  · exact h

theorem StInv_extract (U M : Finset Cell) (st : AI) (c : Bool) (h : StInv U M st) :
    StInv U M (st.extract c).1 :=
  extractAux_preserve (StInv U M)
    (fun st s c hP hs => StInv_extractStep U M st s c hs hP)
    st.knowledge.length st 0 c h

theorem StInv_gc (U M : Finset Cell) (st : AI) (h : StInv U M st) :
    StInv U M st.gc := fun s hs => h s (List.mem_of_mem_filter hs)

theorem freeCount_mono (U : Finset Cell) (st st' : AI)
    (h1 : st.safes ⊆ st'.safes) (h2 : st.mines ⊆ st'.mines) :
    freeCount U st' ≤ freeCount U st :=
  Finset.card_le_card
    (Finset.sdiff_subset_sdiff subset_rfl (Finset.union_subset_union h1 h2))

theorem card_lt_of_witness {α : Type} [DecidableEq α] (A B : Finset α) (x : α)
    (hsub : A ⊆ B) (hxB : x ∈ B) (hxA : x ∉ A) : A.card < B.card :=
  Finset.card_lt_card ((Finset.ssubset_iff_of_subset hsub).mpr ⟨x, hxB, hxA⟩)

theorem extractStep_fire_decrease (U M : Finset Cell) (st : AI) (s : Sentence)
    (hs : s ∈ st.knowledge) (hInv : StInv U M st)
    (hfire : (AI.extractStep st s false).2 = true) :
    freeCount U (AI.extractStep st s false).1 < freeCount U st := by
  obtain ⟨⟨hgU, -⟩, hdsafe, hdmine⟩ := hInv s hs
  by_cases h1 : s.known_safes.Nonempty <;> by_cases h2 : s.known_mines.Nonempty <;>
    simp only [AI.extractStep, h1, h2, if_true, if_false] at hfire ⊢
  · obtain ⟨x, hx⟩ := h1
    have hxc : x ∈ s.cells := by
      unfold Sentence.known_safes at hx
      split_ifs at hx with h0
      · exact hx
      · exact absurd hx (Finset.not_mem_empty x)
    refine card_lt_of_witness _ _ x (Finset.sdiff_subset_sdiff subset_rfl ?_) ?_ ?_
    · refine Finset.union_subset_union ?_ ?_ <;>
        simp [AI.mark_mines_set, AI.mark_safes_set, Finset.subset_union_left]
    · exact Finset.mem_sdiff.mpr ⟨hgU hxc,
        fun hmem => (Finset.mem_union.mp hmem).elim (hdsafe x hxc) (hdmine x hxc)⟩
    · intro hmem
      obtain ⟨-, hnot⟩ := Finset.mem_sdiff.mp hmem
      refine hnot ?_
      simp only [AI.mark_mines_set, AI.mark_safes_set, Finset.mem_union]
      left
      exact Or.inr hx
  · obtain ⟨x, hx⟩ := h1
    have hxc : x ∈ s.cells := by
      unfold Sentence.known_safes at hx
      split_ifs at hx with h0
      · exact hx
      · exact absurd hx (Finset.not_mem_empty x)
    refine card_lt_of_witness _ _ x (Finset.sdiff_subset_sdiff subset_rfl ?_) ?_ ?_
    · refine Finset.union_subset_union ?_ ?_ <;>
        simp [AI.mark_safes_set, Finset.subset_union_left]
    · exact Finset.mem_sdiff.mpr ⟨hgU hxc,
        fun hmem => (Finset.mem_union.mp hmem).elim (hdsafe x hxc) (hdmine x hxc)⟩
    · intro hmem
      obtain ⟨-, hnot⟩ := Finset.mem_sdiff.mp hmem
      refine hnot ?_
      simp only [AI.mark_safes_set, Finset.mem_union]
      left
      exact Or.inr hx
  · obtain ⟨x, hx⟩ := h2
    have hxc : x ∈ s.cells := by
      unfold Sentence.known_mines at hx
      split_ifs at hx with h0
      · exact hx
      · exact absurd hx (Finset.not_mem_empty x)
    refine card_lt_of_witness _ _ x (Finset.sdiff_subset_sdiff subset_rfl ?_) ?_ ?_
    · refine Finset.union_subset_union ?_ ?_ <;>
        simp [AI.mark_mines_set, Finset.subset_union_left]
    · exact Finset.mem_sdiff.mpr ⟨hgU hxc,
        fun hmem => (Finset.mem_union.mp hmem).elim (hdsafe x hxc) (hdmine x hxc)⟩
    · intro hmem
      obtain ⟨-, hnot⟩ := Finset.mem_sdiff.mp hmem
      refine hnot ?_
      simp only [AI.mark_mines_set, Finset.mem_union]
      right
      exact Or.inr hx
  · exact absurd hfire Bool.false_ne_true

theorem extractAux_fire_decrease (U M : Finset Cell) (f : ℕ) :
    ∀ (st : AI) (i : ℕ), StInv U M st →
      (AI.extractAux st i f false).2 = true →
      freeCount U (AI.extractAux st i f false).1 < freeCount U st := by
  induction f with
  | zero => intro st i _ hflag; exact absurd hflag Bool.false_ne_true
  | succ f ih =>
    intro st i hInv hflag
    cases hg : st.knowledge.get? i with
    | none =>
      have hgoal : AI.extractAux st i (f + 1) false = (st, false) := by
        rw [AI.extractAux, hg]
      rw [hgoal] at hflag
      exact absurd hflag Bool.false_ne_true
    | some s =>
      have hgoal : AI.extractAux st i (f + 1) false =
          AI.extractAux (AI.extractStep st s false).1 (i + 1) f
            (AI.extractStep st s false).2 := by
        rw [AI.extractAux, hg]
      rw [hgoal] at hflag ⊢
      by_cases hc2 : (AI.extractStep st s false).2 = true
      · have hdec := extractStep_fire_decrease U M st s (List.get?_mem hg) hInv hc2
        have hsets := extractAux_sets f (AI.extractStep st s false).1 (i + 1)
          (AI.extractStep st s false).2
        have hmono := freeCount_mono U (AI.extractStep st s false).1
          (AI.extractAux (AI.extractStep st s false).1 (i + 1) f
            (AI.extractStep st s false).2).1 hsets.1 hsets.2
        omega
      · have hc2' : (AI.extractStep st s false).2 = false := by
          revert hc2
          cases (AI.extractStep st s false).2 <;> simp
        obtain ⟨hst, -, -⟩ := extractStep_false st s hc2'
        rw [hc2', hst] at hflag ⊢
        exact ih st (i + 1) hInv hflag

theorem emptyBit_le_one (st : AI) : emptyBit st ≤ 1 := by
  unfold emptyBit
  split_ifs <;> omega

theorem emptyBit_eq_zero (st : AI) (h : ∀ s ∈ st.knowledge, s.cells ≠ ∅) :
    emptyBit st = 0 := by
  unfold emptyBit
  rw [if_neg]
  rintro ⟨s, hs, hc⟩
  exact h s hs hc

theorem emptyBit_eq_one (st : AI) (h : ∃ s ∈ st.knowledge, s.cells = ∅) :
    emptyBit st = 1 := by
  unfold emptyBit
  rw [if_pos h]

theorem mu_lt_of_free_lt (U : Finset Cell) (st st' : AI)
    (hf : freeCount U st' < freeCount U st) : mu U st' < mu U st := by
  unfold mu
  have he' := emptyBit_le_one st'
  have ht' : U.powerset.card - st'.knowledge.toFinset.card ≤ U.powerset.card :=
    Nat.sub_le _ _
  have k1 : (freeCount U st' * 2 + emptyBit st') * (U.powerset.card + 1) ≤
      (freeCount U st' * 2 + 1) * (U.powerset.card + 1) :=
    mul_le_mul_right' (by omega) _
  have k2 : (freeCount U st' * 2 + 1 + 1) * (U.powerset.card + 1) ≤
      (freeCount U st * 2) * (U.powerset.card + 1) :=
    mul_le_mul_right' (by omega) _
  have k3 : (freeCount U st * 2) * (U.powerset.card + 1) ≤
      (freeCount U st * 2 + emptyBit st) * (U.powerset.card + 1) :=
    mul_le_mul_right' (by omega) _
  have k4 : (freeCount U st' * 2 + 1 + 1) * (U.powerset.card + 1) =
      (freeCount U st' * 2 + 1) * (U.powerset.card + 1) + (U.powerset.card + 1) := by
    ring
  omega

theorem mu_lt_of_empty_drop (U : Finset Cell) (st st' : AI)
    (hfree : freeCount U st' = freeCount U st)
    (he : emptyBit st = 1) (he' : emptyBit st' = 0) : mu U st' < mu U st := by
  unfold mu
  rw [hfree, he, he']
  have ht' : U.powerset.card - st'.knowledge.toFinset.card ≤ U.powerset.card :=
    Nat.sub_le _ _
  have k4 : (freeCount U st * 2 + 1) * (U.powerset.card + 1) =
      (freeCount U st * 2 + 0) * (U.powerset.card + 1) + (U.powerset.card + 1) := by
    ring
  omega

theorem mu_lt_of_distinct_gain (U : Finset Cell) (st st' : AI)
    (hfree : freeCount U st' = freeCount U st)
    (he : emptyBit st' = emptyBit st)
    (hd : st.knowledge.toFinset.card < st'.knowledge.toFinset.card)
    (hd' : st'.knowledge.toFinset.card ≤ U.powerset.card) : mu U st' < mu U st := by
  unfold mu
  rw [hfree, he]
  omega

theorem toFinset_append_fresh_lt (K A : List Sentence) (hA : A ≠ [])
    (hfresh : ∀ a ∈ A, a ∉ K) :
    K.toFinset.card < (K ++ A).toFinset.card := by
  obtain ⟨a, ha⟩ := List.exists_mem_of_ne_nil A hA
  rw [List.toFinset_append]
  refine card_lt_of_witness _ _ a Finset.subset_union_left ?_ ?_
  · exact Finset.mem_union_right _ (List.mem_toFinset.mpr ha)
  · intro hmem
    exact hfresh a ha (List.mem_toFinset.mp hmem)

theorem gc_eq_self (st : AI) (h : ∀ s ∈ st.knowledge, s.cells ≠ ∅) :
    st.gc = st := by
  cases st with
  | mk hh ww mm mi sa k =>
    simp only [AI.gc]
    congr 1
    rw [List.filter_eq_self]
    intro a ha
    simpa using h a ha

theorem extract_fire_decrease (U M : Finset Cell) (st : AI) (hInv : StInv U M st)
    (hflag : (st.extract false).2 = true) :
    freeCount U (st.extract false).1 < freeCount U st :=
  extractAux_fire_decrease U M st.knowledge.length st 0 hInv hflag

/-- Every round from a state satisfying the per-run invariant completes
with enough fuel, preserves the invariant, and decreases the measure
whenever it reports a change. -/
theorem round_exists (U M : Finset Cell) (st : AI) (hInv : StInv U M st) :
    ∃ f q, st.roundFn f = some q ∧ StInv U M q.1 ∧
      (q.2 = true → mu U q.1 < mu U st) := by
  have hInv1 : StInv U M (st.extract false).1 := StInv_extract U M st false hInv
  have hInv2 : StInv U M (st.extract false).1.gc := StInv_gc U M _ hInv1
  have hgood2 : ∀ s ∈ ((st.extract false).1.gc).knowledge, Good U M s :=
    fun s hs => (hInv2 s hs).1
  set K2 := ((st.extract false).1.gc).knowledge with hK2
  set n := (K2.length + U.powerset.card + 1) * (K2.length + U.powerset.card + 2) +
    (K2.length + U.powerset.card + 1) with hn
  have hsome : (subAux K2 0 0 (st.extract false).2 (n + 1)).isSome := by
    refine subAux_term U M K2 n K2 0 0 _ (ExtOf.refl K2) hgood2
      (Nat.zero_le _) (Nat.zero_le _) ?_
    exact hn.ge
  obtain ⟨q, hq⟩ := Option.isSome_iff_exists.mp hsome
  have hround : st.roundFn (n + 1) =
      some ({ (st.extract false).1.gc with knowledge := q.1 }, q.2) := by
    unfold AI.roundFn
    rw [hq]
  have hInv' : StInv U M ({ (st.extract false).1.gc with knowledge := q.1 } : AI) := by
    intro s hs
    exact subAux_preserve
      (fun s => Good U M s ∧ (∀ c ∈ s.cells, c ∉ ((st.extract false).1.gc).safes) ∧
        ∀ c ∈ s.cells, c ∉ ((st.extract false).1.gc).mines)
      (by
        rintro s1 s2 ⟨hg1, hd1, he1⟩ ⟨hg2, hd2, he2⟩ hsub12
        refine ⟨Good_subsumption U M s1 s2 hg1 hg2 hsub12, ?_, ?_⟩ <;>
          intro c hc <;> obtain ⟨hc2, -⟩ := Finset.mem_sdiff.mp hc
        · exact hd2 c hc2
        · exact he2 c hc2)
      (n + 1) K2 0 0 _ q.1 q.2 (fun s hs => hInv2 s hs) hq s hs
  refine ⟨n + 1, ({ (st.extract false).1.gc with knowledge := q.1 }, q.2),
    hround, hInv', ?_⟩
  intro hq2
  by_cases hc1 : (st.extract false).2 = true
  · have hfree1 : freeCount U (st.extract false).1 < freeCount U st :=
      extract_fire_decrease U M st hInv hc1
    exact mu_lt_of_free_lt U st _ hfree1
  · have hc1' : (st.extract false).2 = false := by
      revert hc1
      cases (st.extract false).2 <;> simp
    obtain ⟨hst1, -⟩ := extract_false st hc1'
    rw [hc1'] at hq
    have hq' : subAux K2 0 0 false (n + 1) = some (q.1, true) := by
      rw [hq, ← hq2]
    have hgrow : K2.length < q.1.length := subAux_grow (n + 1) K2 0 0 q.1 hq'
    obtain ⟨A, hqA, hAnodup, hAfresh, hAne⟩ := subAux_ext (n + 1) K2 0 0 false q.1 true hq'
    have hAnil : A ≠ [] := by
      intro h0
      rw [h0, List.append_nil] at hqA
      rw [hqA] at hgrow
      omega
    have hK2st : K2 = (st.gc).knowledge := by rw [hK2, hst1]
    have hK2ne : ∀ s ∈ K2, s.cells ≠ ∅ := by
      rw [hK2st]
      intro s hs
      simp only [AI.gc, List.mem_filter, decide_eq_true_eq] at hs
      exact hs.2
    have hne' : ∀ s ∈ q.1, s.cells ≠ ∅ := by
      rw [hqA]
      intro s hs
      rcases List.mem_append.mp hs with hs | hs
      · exact hK2ne s hs
      · exact hAne s hs
    have hfree' : freeCount U ({ (st.extract false).1.gc with knowledge := q.1 } : AI) =
        freeCount U st := by
      show freeCount U (st.extract false).1 = freeCount U st
      rw [hst1]
    by_cases hE : ∃ s ∈ st.knowledge, s.cells = ∅
    · exact mu_lt_of_empty_drop U st _ hfree' (emptyBit_eq_one st hE)
        (emptyBit_eq_zero _ hne')
    · push_neg at hE
      have hgcst : st.gc = st := gc_eq_self st hE
      have hK2eq : K2 = st.knowledge := by rw [hK2st, hgcst]
      rw [hK2eq] at hqA hAfresh
      have hd : st.knowledge.toFinset.card < q.1.toFinset.card := by
        rw [hqA]
        exact toFinset_append_fresh_lt st.knowledge A hAnil hAfresh
      have hd' : q.1.toFinset.card ≤ U.powerset.card :=
        good_toFinset_card U M q.1 (fun s hs => (hInv' s hs).1)
      refine mu_lt_of_distinct_gain U st _ hfree' ?_ hd hd'
      rw [emptyBit_eq_zero _ hne', emptyBit_eq_zero st hE]

theorem updateAux_exists (U M : Finset Cell) :
    ∀ (n : ℕ) (st : AI), StInv U M st → mu U st ≤ n →
      ∃ r f x, AI.updateAux st r f = some x := by
  intro n
  induction n using Nat.strong_induction_on with
  | _ n ih =>
    intro st hInv hmu
    obtain ⟨f, q, hround, hInv', hdec⟩ := round_exists U M st hInv
    by_cases hq2 : q.2 = true
    · have hlt : mu U q.1 < mu U st := hdec hq2
      obtain ⟨r', f', x, hx⟩ := ih (mu U q.1) (by omega) q.1 hInv' (le_refl _)
      refine ⟨r' + 1, max f f', x, ?_⟩
      rw [AI.updateAux]
      have hR := roundFn_mono st f (max f f') q (le_max_left _ _) hround
      simp only [hR]
      rw [if_pos hq2]
      exact updateAux_mono_sub r' q.1 f' (max f f') x (le_max_right _ _) hx
    · refine ⟨1, f, q.1, ?_⟩
      rw [AI.updateAux]
      simp only [hround]
      rw [if_neg hq2]

theorem update_knowledge_halts_of_StInv (U M : Finset Cell) (st : AI)
    (hInv : StInv U M st) : ∃ fuel, (st.update_knowledge fuel).isSome := by
  obtain ⟨r, f, x, hx⟩ := updateAux_exists U M (mu U st) st hInv (le_refl _)
  refine ⟨max r f, ?_⟩
  rw [AI.update_knowledge,
    updateAux_mono_sub (max r f) st f (max r f) x (le_max_right _ _)
      (updateAux_mono_rounds r (max r f) st f x (le_max_left _ _) hx)]
  exact Option.isSome_some

theorem subset_cellsUnion (K : List Sentence) (s : Sentence) (hs : s ∈ K) :
    s.cells ⊆ cellsUnion K := by
  induction K with
  | nil => exact absurd hs (List.not_mem_nil s)
  | cons a K ih =>
    rcases List.mem_cons.mp hs with rfl | hs
    · exact Finset.subset_union_left
    · exact (ih hs).trans Finset.subset_union_right

theorem Reach_ReachAny (h w : ℤ) (M : Finset Cell) (st : AI)
    (hr : Reach h w M st) : ReachAny st := by
  induction hr with
  | init => exact ReachAny.init h w
  | add_step st st' cell fuel _ _ hadd ih =>
    exact ReachAny.add_step st st' cell _ fuel ih hadd
  | mine_step st c _ _ ih => exact ReachAny.mine_step st c ih
  | safe_step st c _ _ ih => exact ReachAny.safe_step st c ih

theorem Reach_StInv (h w : ℤ) (M : Finset Cell) (st : AI) (hr : Reach h w M st) :
    StInv (cellsUnion st.knowledge) M st := by
  have hInv := Reach_Inv h w M st hr
  have hHB := ReachAny_HB st (Reach_ReachAny h w M st hr)
  intro s hs
  obtain ⟨hb1, hb2, -⟩ := hHB s hs
  exact ⟨⟨subset_cellsUnion st.knowledge s hs, hInv.2.2 s hs⟩, hb1, hb2⟩

/-- Claim C3: from every knowledge-base state reachable under the
specification's operation contract (observations consistent with a
ground-truth mine assignment `M`, as §6/§7 of the spec assume for all
inputs), the fixpoint procedure `update_knowledge` halts: some finite
fuel suffices for the fuelled model to return.  The proof runs on a
lexicographic measure: unclassified universe cells, then surviving
empty-cell sentences, then missing sentence values, with the quadratic
index measure bounding each subsumption pass. -/
theorem fixpoint_terminates (h w : ℤ) (M : Finset Cell) (st : AI)
    (hr : Reach h w M st) : ∃ fuel, (st.update_knowledge fuel).isSome :=
  update_knowledge_halts_of_StInv (cellsUnion st.knowledge) M st
    (Reach_StInv h w M st hr)

/-- Witness for C3: the fixpoint procedure halts from the concrete
contract-respecting state reached by revealing `(0,0)` on a 2-by-2 board
whose mine set is `{(1,1)}`. -/
theorem fixpoint_terminates_witness :
    ∃ fuel, ((⟨2, 2, {((0 : ℤ), (0 : ℤ))}, ∅, {((0 : ℤ), (0 : ℤ))},
      [⟨{((0 : ℤ), (1 : ℤ)), ((1 : ℤ), (0 : ℤ)), ((1 : ℤ), (1 : ℤ))}, 1⟩]⟩ : AI).update_knowledge
        fuel).isSome :=
  fixpoint_terminates 2 2 {((1 : ℤ), (1 : ℤ))} _
    (Reach.add_step (AI.fresh 2 2) _ ((0 : ℤ), (0 : ℤ)) 5 Reach.init
      (by decide) (by decide))

end Minesweeper
